import Mathlib

/-!
Verification of the path-planning core in `FRC/simulation/planner.py`.

The planner operates on 2D points stored as numpy float arrays.  We embed a
point as a pair of rationals.  Every distance the Python code computes is a
Euclidean norm `np.linalg.norm(p - q)`, whose square root is irrational in
general; the algorithms below read distances only through the function
parameter `d : Point → Point → ℚ`, which stands for `fun p q => ‖p - q‖`.
All structural claims (partitions, permutations, subsequences, endpoint
preservation, monotone length decrease, idempotence, statistics) hold for an
arbitrary `d`, sometimes under the symmetry and nonnegativity properties the
Euclidean norm enjoys; those properties appear as explicit hypotheses.
All other arithmetic in the source (dot products, the Catmull-Rom cubic,
scores, percentages) is exact rational arithmetic and is embedded directly,
componentwise where numpy computes on whole `(N, 2)` arrays.
-/

namespace Planner

/-- A 2D point `(x, y)`, as in the `(N, 2)` numpy arrays of the source. -/
abbrev Point := ℚ × ℚ

/-- Default element used for (never taken) out-of-range list reads. -/
def origin : Point := ((0 : ℚ), (0 : ℚ))

/-- A concrete computable distance used to instantiate witnesses:
`|Δx| + |Δy|`.  On collinear axis-parallel points it coincides with the
Euclidean norm. -/
def dM (p q : Point) : ℚ := |p.1 - q.1| + |p.2 - q.2|

/-- Embedding of `path_distance` (planner.py, lines 21-35): sum of
consecutive distances, `0.0` for fewer than two points. -/
def path_distance (d : Point → Point → ℚ) : List Point → ℚ
  | [] => 0
  | [_] => 0
  | a :: b :: rest => d a b + path_distance d (b :: rest)

/-! ### Clustering (planner.py, lines 82-118)

`find_all_clusters` keeps two boolean arrays indexed by ball number
(`visited`, `in_cluster`) and a FIFO queue of indices.  We embed the
arrays as `List Bool` read through `getD` and the queue as a `List ℕ`.
-/

/-- Set several indices of a boolean list to `true`
(the per-iteration markings `visited[i] = True`, `in_cluster[i] = True`). -/
def markAll (l : List Bool) (idxs : List ℕ) : List Bool :=
  idxs.foldl (fun acc i => acc.set i true) l

/-- One BFS expansion (the `while queue:` loop of `find_all_clusters`):
pop `curr`, collect every not-yet-visited index within `radius` of it,
mark those indices visited and in-cluster, and push them.  The python
check `not visited[i] and d[i] <= radius` becomes the filter below.
Termination: every pushed index turns from unvisited to visited. -/
def bfs (d : Point → Point → ℚ) (balls : List Point) (radius : ℚ) :
    List Bool → List Bool → List ℕ → List Bool × List Bool
  | v, c, [] => (v, c)
  | v, c, curr :: qs =>
      let news := (List.range balls.length).filter
        (fun i => !(v.getD i true) &&
          decide (d (balls.getD curr origin) (balls.getD i origin) ≤ radius))
      bfs d balls radius (markAll v news) (markAll c news) (qs ++ news)
  termination_by v _ q => (v.length + 1) * (v.length - v.count true) + q.length
  decreasing_by
    simp only [List.length_append, List.length_cons]
    set news' := List.filter
      (fun i => !v.getD i true &&
        decide (d (balls.getD curr origin) (balls.getD i origin) ≤ radius))
      (List.range balls.length) with hn
    have hmark : ∀ (ns : List ℕ) (w : List Bool), ns.Nodup →
        (∀ i ∈ ns, w.getD i true = false) →
        (markAll w ns).length = w.length ∧
          (markAll w ns).count true = w.count true + ns.length := by
      intro ns
      induction ns with
      | nil => intro w _ _; simp [markAll]
      | cons a t ih =>
          intro w hnd hall
          have ha : w.getD a true = false := hall a (by simp)
          have halt : a < w.length := by
            by_contra hc
            push_neg at hc
            rw [List.getD_eq_getElem?_getD, List.getElem?_eq_none (by omega)] at ha
            simp at ha
          have hstep : markAll w (a :: t) = markAll (w.set a true) t := by
            simp [markAll]
          have hnd' : t.Nodup := (List.nodup_cons.mp hnd).2
          have hna : a ∉ t := (List.nodup_cons.mp hnd).1
          have hall' : ∀ i ∈ t, (w.set a true).getD i true = false := by
            intro i hi
            have hne : i ≠ a := fun hia => hna (hia ▸ hi)
            rw [List.getD_eq_getElem?_getD, List.getElem?_set_ne (Ne.symm hne),
              ← List.getD_eq_getElem?_getD]
            exact hall i (List.mem_cons_of_mem _ hi)
          obtain ⟨hl, hc⟩ := ih (w.set a true) hnd' hall'
          have hcnt : (w.set a true).count true = w.count true + 1 := by
            rw [List.count_set true true w a halt]
            have hwa : w[a] = false := by
              rw [List.getD_eq_getElem w true halt] at ha
              exact ha
            simp [hwa]
          refine ⟨by rw [hstep, hl, List.length_set], ?_⟩
          rw [hstep, hc, hcnt, List.length_cons]
          omega
    have hnodup : news'.Nodup := by
      rw [hn]; exact List.Nodup.filter _ (List.nodup_range _)
    have hall : ∀ i ∈ news', v.getD i true = false := by
      intro i hi
      rw [hn] at hi
      have hmem := (List.mem_filter.mp hi).2
      have hb := (Bool.and_eq_true _ _).mp hmem
      simpa using hb.1
    obtain ⟨hL, hC⟩ := hmark news' v hnodup hall
    have hle := List.count_le_length true (markAll v news')
    rw [hL, hC] at hle
    have hsplit : (v.length + 1) * (v.length - List.count true v) =
        (v.length + 1) * (v.length - (List.count true v + news'.length)) +
          (v.length + 1) * news'.length := by
      rw [← Nat.mul_add]
      congr 1
      omega
    have hK : news'.length ≤ (v.length + 1) * news'.length :=
      Nat.le_mul_of_pos_left _ (by omega)
    rw [hL, hC]
    omega

/-- The seed loop of `find_all_clusters`: for each index in order, if it is
not yet visited start a BFS from it and record the resulting cluster mask.
The source appends `balls[in_cluster]` directly; we record the boolean mask
and select the points afterwards (`selectMask`), which yields the same
list of clusters. -/
def clusterMasks (d : Point → Point → ℚ) (balls : List Point) (radius : ℚ) :
    List (List Bool) :=
  if balls.length = 0 then [] else
  ((List.range balls.length).foldl
    (fun (acc : List Bool × List (List Bool)) seed =>
      if acc.1.getD seed true then acc
      else
        let res := bfs d balls radius (acc.1.set seed true)
          ((List.replicate balls.length false).set seed true) [seed]
        (res.1, acc.2 ++ [res.2]))
    (List.replicate balls.length false, [])).2

/-- Numpy boolean-mask selection `balls[mask]`: the points whose index the
mask marks, in index order. -/
def selectMask (balls : List Point) (m : List Bool) : List Point :=
  ((List.range balls.length).filter (fun i => m.getD i false)).map
    (fun i => balls.getD i origin)

/-- Embedding of `find_all_clusters` (planner.py, lines 82-118). -/
def find_all_clusters (d : Point → Point → ℚ) (balls : List Point)
    (radius : ℚ) : List (List Point) :=
  (clusterMasks d balls radius).map (selectMask balls)

/-- Edge of the proximity graph: both indices are in range and the two
balls are at distance at most `radius`. -/
def Adj (d : Point → Point → ℚ) (balls : List Point) (radius : ℚ)
    (a b : ℕ) : Prop :=
  a < balls.length ∧ b < balls.length ∧
    d (balls.getD a origin) (balls.getD b origin) ≤ radius

/-- Chain connectivity: `a` and `b` are joined by a chain of balls with
consecutive pairwise distances at most `radius`. -/
def Conn (d : Point → Point → ℚ) (balls : List Point) (radius : ℚ) :
    ℕ → ℕ → Prop :=
  Relation.ReflTransGen (Adj d balls radius)

/-! ### Cluster scoring and selection (planner.py, lines 121-178) -/

/-- Minimum of a list of rationals (`np.min`; the source never applies it
to an empty array, for which we return `0`). -/
def listMin : List ℚ → ℚ
  | [] => 0
  | x :: xs => xs.foldl min x

/-- Embedding of `score_cluster` (planner.py, lines 121-141):
`(size / (min_distance + bias), min_distance)`. -/
def score_cluster (d : Point → Point → ℚ) (cluster : List Point)
    (robot_pos : Point) (distance_bias : ℚ) : ℚ × ℚ :=
  let min_dist := listMin (cluster.map (fun p => d p robot_pos))
  ((cluster.length : ℚ) / (min_dist + distance_bias), min_dist)

/-- The dictionary `select_best_cluster` returns. -/
structure Selection where
  cluster : List Point
  score : ℚ
  min_distance : ℚ
  size : ℕ
  num_clusters : ℕ
  deriving DecidableEq

/-- Embedding of `select_best_cluster` (planner.py, lines 144-178).
The fold keeps `(best_cluster, best_score, best_min_dist)`, starting from
`(None, -1.0, 0.0)` and replacing it whenever a strictly greater score
appears.  The final `len(best_cluster)` would fault in Python were
`best_cluster` still `None`; we read it through `getD []`. -/
def select_best_cluster (d : Point → Point → ℚ) (balls : List Point)
    (robot_pos : Point) (radius distance_bias : ℚ) : Option Selection :=
  let clusters := find_all_clusters d balls radius
  if clusters = [] then none
  else
    let best := clusters.foldl
      (fun (acc : Option (List Point) × ℚ × ℚ) c =>
        let sm := score_cluster d c robot_pos distance_bias
        if sm.1 > acc.2.1 then (some c, sm.1, sm.2) else acc)
      (none, -1, 0)
    some { cluster := best.1.getD []
           score := best.2.1
           min_distance := best.2.2
           size := (best.1.getD []).length
           num_clusters := clusters.length }

/-! ### Nearest-neighbor ordering (planner.py, lines 185-214) -/

/-- Index of the first minimum of a list of rationals (`np.argmin`). -/
def argminList : List ℚ → ℕ
  | [] => 0
  | x :: xs =>
      let k := argminList xs
      if xs = [] then 0 else if x ≤ xs.getD k 0 then 0 else k + 1

/-- The `while remaining:` loop of `nearest_neighbor_order`, on the list of
remaining indices: find the remaining index nearest to `current`, pop it,
append it, and move `current` to the chosen ball. -/
def nnAux (d : Point → Point → ℚ) (points : List Point) :
    List ℕ → Point → List ℕ
  | [], _ => []
  | r :: rs, current =>
      let remaining := r :: rs
      let k := argminList (remaining.map
        (fun i => d (points.getD i origin) current))
      let chosen := remaining.getD k 0
      chosen :: nnAux d points (remaining.eraseIdx k)
        (points.getD chosen origin)
  termination_by l _ => l.length
  decreasing_by
    have hargmin : ∀ (l : List ℚ), l ≠ [] → argminList l < l.length := by
      intro l
      induction l with
      | nil => simp
      | cons x xs ih =>
          intro _
          by_cases hxs : xs = []
          · subst hxs; simp [argminList]
          · simp only [argminList]
            rw [if_neg hxs]
            split
            · simp
            · have := ih hxs
              simp only [List.length_cons]
              omega
    have hk : argminList ((r :: rs).map
        (fun i => d (points.getD i origin) current)) < (r :: rs).length := by
      have := hargmin ((r :: rs).map (fun i => d (points.getD i origin) current))
        (by simp)
      simpa using this
    rw [List.length_eraseIdx]
    simp only [hk, if_pos]
    simp only [List.length_cons] at hk ⊢
    omega

/-- Embedding of `nearest_neighbor_order` (planner.py, lines 185-214). -/
def nearest_neighbor_order (d : Point → Point → ℚ) (points : List Point)
    (start : Point) : List Point :=
  (nnAux d points (List.range points.length) start).map
    (fun i => points.getD i origin)

/-- Greedy nearest-neighbor ordering as the spec words it (section 4.3):
repeatedly select from the remaining points the one nearest to the current
position, ties broken by first-encountered order, append it, and advance the
current position to it.  Claim C9 proves `nearest_neighbor_order` builds an
ordering of this shape. -/
inductive GreedySpec (d : Point → Point → ℚ) :
    List Point → Point → List Point → Prop
  | nil (current : Point) : GreedySpec d [] current []
  | step (pts : List Point) (current : Point) (k : ℕ) (rest : List Point)
      (hk : k < pts.length)
      (hmin : ∀ j, j < pts.length →
        d (pts.getD k origin) current ≤ d (pts.getD j origin) current)
      (hfirst : ∀ j, j < k →
        d (pts.getD k origin) current < d (pts.getD j origin) current)
      (hrest : GreedySpec d (pts.eraseIdx k) (pts.getD k origin) rest) :
      GreedySpec d pts current (pts.getD k origin :: rest)

/-! ### 2-opt improvement (planner.py, lines 221-257) -/

/-- The epsilon guard of the 2-opt improvement test (`1e-10`). -/
def twoOptEps : ℚ := 1 / 10 ^ 10

/-- In-place reversal of the python slice `tour[i+1 : j+1]`, called here
with `a = i + 1`, `b = j + 1`. -/
def reverseSegment (t : List Point) (a b : ℕ) : List Point :=
  t.take a ++ ((t.drop a).take (b - a)).reverse ++ t.drop b

/-- The `d_old` of the 2-opt test: edge `(i, i+1)`, plus edge `(j, j+1)`
when it exists. -/
def dOldSum (d : Point → Point → ℚ) (t : List Point) (i j : ℕ) : ℚ :=
  d (t.getD i origin) (t.getD (i + 1) origin) +
    (if j + 1 < t.length then d (t.getD j origin) (t.getD (j + 1) origin)
     else 0)

/-- The `d_new` of the 2-opt test: edges `(i, j)` and `(i+1, j+1)`, or only
`(i, j)` when `j` is the last point. -/
def dNewSum (d : Point → Point → ℚ) (t : List Point) (i j : ℕ) : ℚ :=
  if j + 1 < t.length then
    d (t.getD i origin) (t.getD j origin) +
      d (t.getD (i + 1) origin) (t.getD (j + 1) origin)
  else d (t.getD i origin) (t.getD j origin)

/-- The guarded improvement test `d_new < d_old - 1e-10`. -/
def twoOptImproves (d : Point → Point → ℚ) (t : List Point) (i j : ℕ) :
    Bool :=
  decide (dNewSum d t i j < dOldSum d t i j - twoOptEps)

/-- The `(i, j)` pairs the nested `for` loops of `two_opt_improve` visit,
in visiting order: `i` over `range(n-1)`, `j` over `range(i+2, n)`. -/
def sweepPairs (n : ℕ) : List (ℕ × ℕ) :=
  (List.range (n - 1)).flatMap
    (fun i => (List.range' (i + 2) (n - (i + 2))).map (fun j => (i, j)))

/-- Body of the nested loops: test the pair on the current tour and either
reverse the segment (recording that the sweep improved) or keep going. -/
def twoOptStep (d : Point → Point → ℚ) (acc : List Point × Bool)
    (ij : ℕ × ℕ) : List Point × Bool :=
  if twoOptImproves d acc.1 ij.1 ij.2 then
    (reverseSegment acc.1 (ij.1 + 1) (ij.2 + 1), true)
  else acc

/-- One full sweep of the nested `for` loops, returning the updated tour
and the `improved` flag. -/
def twoOptSweep (d : Point → Point → ℚ) (t : List Point) :
    List Point × Bool :=
  (sweepPairs t.length).foldl (twoOptStep d) (t, false)

/-- The `while improved:` loop.  The python loop repeats sweeps until one
makes no change; we run it on explicit fuel. -/
def twoOptLoop (d : Point → Point → ℚ) : ℕ → List Point → List Point
  | 0, t => t
  | fuel + 1, t =>
      let s := twoOptSweep d t
      if s.2 then twoOptLoop d fuel s.1 else s.1

/-- Fuel sufficient for the `while improved:` loop to reach its fixed
point: every improving sweep shortens the tour by more than `twoOptEps`,
and the length is bounded below by `0`, so at most
`⌊length / twoOptEps⌋` improving sweeps can occur.  The lemma
`twoOptLoop_fixed_point` below proves this bound suffices, so the fueled
loop computes exactly what the unbounded python loop computes. -/
def twoOptFuel (d : Point → Point → ℚ) (t : List Point) : ℕ :=
  (⌊path_distance d t / twoOptEps⌋).toNat + 1

/-- Embedding of `two_opt_improve` (planner.py, lines 221-257). -/
def two_opt_improve (d : Point → Point → ℚ) (t : List Point) : List Point :=
  if t.length < 4 then t else twoOptLoop d (twoOptFuel d t) t

/-! ### Intake-aware waypoint pruning (planner.py, lines 264-306) -/

/-- The degenerate-segment guard of `_point_to_segment_dist` (`1e-12`). -/
def segDistEps : ℚ := 1 / 10 ^ 12

/-- Embedding of `_point_to_segment_dist` (planner.py, lines 264-273).
The dot products and the clamped projection are exact rational
arithmetic; only the two final norms go through `d`. -/
def point_to_segment_dist (d : Point → Point → ℚ)
    (point seg_start seg_end : Point) : ℚ :=
  let vx := seg_end.1 - seg_start.1
  let vy := seg_end.2 - seg_start.2
  let len_sq := vx * vx + vy * vy
  if len_sq < segDistEps then d point seg_start
  else
    let t := min (max (((point.1 - seg_start.1) * vx +
      (point.2 - seg_start.2) * vy) / len_sq) 0) 1
    d point (seg_start.1 + t * vx, seg_start.2 + t * vy)

/-- The inner `for j in range(1, len(kept) - 1)` loop of one pruning pass.
`prev` is the last kept waypoint (`waypoints[new_kept[-1]]`), the list
argument is the not-yet-scanned tail of the kept list; the lookahead
neighbour `next` is taken from the old kept list exactly as the source
takes `waypoints[kept[j + 1]]`.  The final element is kept
unconditionally.  The python code manipulates index lists `kept` /
`new_kept` but reads them only through `waypoints[...]`; we run the same
computation directly on the point values. -/
def prunePassAux (d : Point → Point → ℚ) (hw : ℚ) :
    Point → List Point → List Point × Bool
  | _, [] => ([], false)
  | _, [lastPt] => ([lastPt], false)
  | prev, curr :: next :: rest =>
      if point_to_segment_dist d curr prev next ≥ hw then
        ((curr :: (prunePassAux d hw curr (next :: rest)).1),
          (prunePassAux d hw curr (next :: rest)).2)
      else
        ((prunePassAux d hw prev (next :: rest)).1, true)

/-- One pass of the pruning loop: the first waypoint is kept
unconditionally, then the interior is scanned by `prunePassAux`. -/
def prunePass (d : Point → Point → ℚ) (hw : ℚ) :
    List Point → List Point × Bool
  | [] => ([], false)
  | p0 :: rest =>
      ((p0 :: (prunePassAux d hw p0 rest).1), (prunePassAux d hw p0 rest).2)

/-- The `while changed:` loop of `prune_waypoints`: repeat passes until a
pass removes nothing.  A changing pass strictly shortens the kept list, so
the loop terminates. -/
def pruneLoop (d : Point → Point → ℚ) (hw : ℚ) (w : List Point) :
    List Point :=
  if hch : (prunePass d hw w).2 = true then
    pruneLoop d hw (prunePass d hw w).1
  else (prunePass d hw w).1
  termination_by w.length
  decreasing_by
    have haux : ∀ (l : List Point) (prev : Point),
        (prunePassAux d hw prev l).1.length ≤ l.length ∧
          ((prunePassAux d hw prev l).2 = true →
            (prunePassAux d hw prev l).1.length < l.length) := by
      intro l
      induction l with
      | nil => intro prev; simp [prunePassAux]
      | cons a t ih =>
          intro prev
          cases t with
          | nil => simp [prunePassAux]
          | cons b t' =>
              simp only [prunePassAux]
              split
              · obtain ⟨h1, h2⟩ := ih a
                refine ⟨by simpa using Nat.succ_le_succ h1, ?_⟩
                intro hc
                simp only at hc
                have := h2 hc
                simp only [List.length_cons] at *
                omega
              · obtain ⟨h1, _⟩ := ih prev
                simp only [List.length_cons] at h1 ⊢
                exact ⟨by omega, fun _ => by omega⟩
    cases w with
    | nil => simp [prunePass] at hch
    | cons p0 rest =>
        obtain ⟨h1, h2⟩ := haux rest p0
        simp only [prunePass] at hch ⊢
        have := h2 hch
        simp only [List.length_cons]
        omega

/-- Embedding of `prune_waypoints` (planner.py, lines 276-306). -/
def prune_waypoints (d : Point → Point → ℚ) (w : List Point)
    (intake_half_width : ℚ) : List Point :=
  if w.length ≤ 2 then w else pruneLoop d intake_half_width w

/-! ### Catmull-Rom smoothing (planner.py, lines 313-347) -/

/-- One coordinate of the Catmull-Rom cubic
`0.5 * (2 p1 + (-p0 + p2) t + (2 p0 - 5 p1 + 4 p2 - p3) t² +
(-p0 + 3 p1 - 3 p2 + p3) t³)`; numpy evaluates it componentwise. -/
def cr1 (a b c e t : ℚ) : ℚ :=
  (1 / 2) * ((2 * b) + (-a + c) * t + (2 * a - 5 * b + 4 * c - e) * t ^ 2 +
    (-a + 3 * b - 3 * c + e) * t ^ 3)

/-- The Catmull-Rom interpolation point for control points
`p0, p1, p2, p3` at parameter `t`. -/
def catmullRom (p0 p1 p2 p3 : Point) (t : ℚ) : Point :=
  (cr1 p0.1 p1.1 p2.1 p3.1 t, cr1 p0.2 p1.2 p2.2 p3.2 t)

/-- Embedding of `smooth_path` (planner.py, lines 313-347).  The python
loop index `i` runs over `range(1, len(pts) - 2)` with control points
`pts[i-1 .. i+2]`; with `s := i - 1` this is the flatMap below. -/
def smooth_path (waypoints : List Point) (num_interp : ℕ) : List Point :=
  if waypoints.length < 2 then waypoints
  else
    let pts := waypoints.headD origin ::
      (waypoints ++ [waypoints.getLastD origin])
    ((List.range (pts.length - 3)).flatMap (fun s =>
      (List.range num_interp).map (fun (t_idx : ℕ) =>
        catmullRom (pts.getD s origin) (pts.getD (s + 1) origin)
          (pts.getD (s + 2) origin) (pts.getD (s + 3) origin)
          ((t_idx : ℚ) / (num_interp : ℚ)))))
      ++ [waypoints.getLastD origin]

/-- Reference construction following the spec's words for section 4.6: for
each of the `N - 1` consecutive waypoint pairs insert `k` Catmull-Rom
points (parameters `r / k`), clamping the control points at both ends by
duplicating the first and last waypoint, then append the final waypoint
exactly.  Claim C4 proves `smooth_path` equals this construction. -/
def smooth_path_spec (w : List Point) (k : ℕ) : List Point :=
  if w.length < 2 then w
  else
    ((List.range (w.length - 1)).flatMap (fun s =>
      (List.range k).map (fun (r : ℕ) =>
        catmullRom (w.getD (s - 1) origin) (w.getD s origin)
          (w.getD (s + 1) origin)
          (w.getD (min (s + 2) (w.length - 1)) origin)
          ((r : ℚ) / (k : ℚ)))))
      ++ [w.getLastD origin]

/-! ### Full-sweep planning (planner.py, lines 404-456) -/

/-- `INTAKE_HALF_WIDTH = INTAKE_WIDTH / 2` with `INTAKE_WIDTH = 0.9`
(field.py, line 19). -/
def INTAKE_HALF_WIDTH : ℚ := 9 / 20

/-- The dictionary `plan_full_sweep` returns. -/
structure SweepPlan where
  nn_waypoints : List Point
  nn_path : List Point
  nn_distance : ℚ
  opt_waypoints : List Point
  opt_path : List Point
  opt_distance : ℚ
  improvement_pct : ℚ
  total_waypoints : ℕ
  pruned_waypoints : ℤ
  deriving DecidableEq

/-- Embedding of `plan_full_sweep` (planner.py, lines 404-456): NN order
all balls from the robot position, prepend the robot position, 2-opt the
result, prune both orderings, smooth both (default density 20), and report
distances, the percentage improvement, and waypoint-pruning statistics. -/
def plan_full_sweep (d : Point → Point → ℚ) (balls : List Point)
    (robot_pos : Point) : Option SweepPlan :=
  if balls.length = 0 then none
  else
    let ordered := nearest_neighbor_order d balls robot_pos
    let nn_waypoints₀ := robot_pos :: ordered
    let total_waypoints := nn_waypoints₀.length
    let opt_waypoints₀ := two_opt_improve d nn_waypoints₀
    let nn_waypoints := prune_waypoints d nn_waypoints₀ INTAKE_HALF_WIDTH
    let opt_waypoints := prune_waypoints d opt_waypoints₀ INTAKE_HALF_WIDTH
    let nn_path := smooth_path nn_waypoints 20
    let nn_distance := path_distance d nn_path
    let opt_path := smooth_path opt_waypoints 20
    let opt_distance := path_distance d opt_path
    let improvement_pct :=
      if nn_distance > 0 then
        (nn_distance - opt_distance) / nn_distance * 100
      else 0
    some { nn_waypoints := nn_waypoints
           nn_path := nn_path
           nn_distance := nn_distance
           opt_waypoints := opt_waypoints
           opt_path := opt_path
           opt_distance := opt_distance
           improvement_pct := improvement_pct
           total_waypoints := total_waypoints
           pruned_waypoints :=
             (total_waypoints : ℤ) - (opt_waypoints.length : ℤ) }

/-- Concrete waypoint pair used to witness hypotheses on concrete input. -/
def wpair : List Point := [((0 : ℚ), (0 : ℚ)), ((2 : ℚ), (0 : ℚ))]

/-- Concrete three-waypoint list whose middle point lies within the intake
half-width of the segment joining its neighbours. -/
def wtriple : List Point :=
  [((0 : ℚ), (0 : ℚ)), ((1 : ℚ), (1 / 100 : ℚ)), ((2 : ℚ), (0 : ℚ))]

/-- Concrete three-point tour: the pair `(0, 2)` is an improving 2-opt
move on it (visiting `(1,0)` before `(5,0)` is shorter), yet
`two_opt_improve` returns tours of fewer than 4 points unchanged. -/
def tour3 : List Point :=
  [((0 : ℚ), (0 : ℚ)), ((5 : ℚ), (0 : ℚ)), ((1 : ℚ), (0 : ℚ))]

/-- Concrete four-point tour used to witness the 2-opt theorems. -/
def tour4 : List Point :=
  [((0 : ℚ), (0 : ℚ)), ((0 : ℚ), (3 : ℚ)), ((0 : ℚ), (1 : ℚ)),
    ((0 : ℚ), (2 : ℚ))]

/-- Concrete two-ball set used to witness the selection theorem. -/
def ballsW : List Point := [((1 : ℚ), (0 : ℚ)), ((4 : ℚ), (0 : ℚ))]

/-- Concrete reference position used in witnesses. -/
def robotW : Point := ((0 : ℚ), (0 : ℚ))

/-! ## Lemmas and claim theorems -/

/-- `headD` is `getD 0`. -/
lemma headD_eq_getD_zero (w : List Point) (a : Point) :
    w.headD a = w.getD 0 a := by
  cases w <;> simp [List.getD]

/-- Reading the last index equals `getLastD` on a nonempty list. -/
lemma getD_last_index (w : List Point) (a : Point) (h : w ≠ []) :
    w.getD (w.length - 1) a = w.getLastD a := by
  have hlen : 0 < w.length := List.length_pos.mpr h
  rw [List.getD_eq_getElem w a (by omega), List.getLastD_eq_getLast?,
    List.getLast?_eq_getLast w h, Option.getD_some,
    List.getLast_eq_getElem]

/-- At parameter `0` the Catmull-Rom cubic returns the second control
point exactly (rational arithmetic). -/
lemma catmullRom_zero (p0 p1 p2 p3 : Point) :
    catmullRom p0 p1 p2 p3 0 = p1 := by
  unfold catmullRom cr1
  have h1 : (1 / 2 : ℚ) * ((2 * p1.1) + (-p0.1 + p2.1) * 0 +
      (2 * p0.1 - 5 * p1.1 + 4 * p2.1 - p3.1) * 0 ^ 2 +
      (-p0.1 + 3 * p1.1 - 3 * p2.1 + p3.1) * 0 ^ 3) = p1.1 := by ring
  have h2 : (1 / 2 : ℚ) * ((2 * p1.2) + (-p0.2 + p2.2) * 0 +
      (2 * p0.2 - 5 * p1.2 + 4 * p2.2 - p3.2) * 0 ^ 2 +
      (-p0.2 + 3 * p1.2 - 3 * p2.2 + p3.2) * 0 ^ 3) = p1.2 := by ring
  rw [h1, h2]

/-- The code's clamped control array `pts` reads as the spec's clamped
indexing into the waypoints, so `smooth_path` equals the spec-side
construction. -/
lemma smooth_eq_spec (w : List Point) (k : ℕ) (hw : 2 ≤ w.length) :
    smooth_path w k = smooth_path_spec w k := by
  have hnlt : ¬ w.length < 2 := by omega
  have hne : w ≠ [] := by
    intro h; subst h; simp at hw
  unfold smooth_path smooth_path_spec
  rw [if_neg hnlt, if_neg hnlt]
  dsimp only
  congr 1
  have hlen : (w.headD origin :: (w ++ [w.getLastD origin])).length - 3 =
      w.length - 1 := by
    simp
  rw [hlen, List.flatMap_def, List.flatMap_def]
  congr 1
  apply List.map_congr_left
  intro s hs
  have hs' : s < w.length - 1 := List.mem_range.mp hs
  have hA : (w.headD origin :: (w ++ [w.getLastD origin])).getD s origin =
      w.getD (s - 1) origin := by
    cases s with
    | zero => rw [List.getD_cons_zero, headD_eq_getD_zero]
    | succ n =>
        rw [List.getD_cons_succ, List.getD_append]
        · congr 1
        · omega
  have hB : (w.headD origin :: (w ++ [w.getLastD origin])).getD (s + 1) origin =
      w.getD s origin := by
    rw [List.getD_cons_succ, List.getD_append]
    omega
  have hC : (w.headD origin :: (w ++ [w.getLastD origin])).getD (s + 2) origin =
      w.getD (s + 1) origin := by
    rw [List.getD_cons_succ, List.getD_append]
    omega
  have hD : (w.headD origin :: (w ++ [w.getLastD origin])).getD (s + 3) origin =
      w.getD (min (s + 2) (w.length - 1)) origin := by
    rw [List.getD_cons_succ]
    by_cases hcase : s + 2 < w.length
    · rw [List.getD_append _ _ _ _ hcase]
      congr 1
      omega
    · have hse : s + 2 = w.length := by omega
      rw [List.getD_append_right _ _ _ _ (by omega)]
      have hmin : min (s + 2) (w.length - 1) = w.length - 1 := by omega
      rw [hmin, getD_last_index w origin hne, hse]
      simp [List.getD]
  rw [hA, hB, hC, hD]

/-- Length of the smoothed path: `k` points for each of the `N - 1`
consecutive pairs, plus the appended final waypoint. -/
lemma smooth_length (w : List Point) (k : ℕ) (hw : 2 ≤ w.length) :
    (smooth_path w k).length = (w.length - 1) * k + 1 := by
  have hnlt : ¬ w.length < 2 := by omega
  unfold smooth_path
  rw [if_neg hnlt]
  dsimp only
  rw [List.length_append, List.length_flatMap]
  have hmap : List.map
      (List.length ∘ fun s =>
        (List.range k).map (fun (t_idx : ℕ) =>
          catmullRom
            ((w.headD origin :: (w ++ [w.getLastD origin])).getD s origin)
            ((w.headD origin :: (w ++ [w.getLastD origin])).getD (s + 1) origin)
            ((w.headD origin :: (w ++ [w.getLastD origin])).getD (s + 2) origin)
            ((w.headD origin :: (w ++ [w.getLastD origin])).getD (s + 3) origin)
            ((t_idx : ℚ) / (k : ℚ))))
      (List.range ((w.headD origin :: (w ++ [w.getLastD origin])).length - 3)) =
      List.map (Function.const ℕ k)
        (List.range ((w.headD origin :: (w ++ [w.getLastD origin])).length - 3)) := by
    apply List.map_congr_left
    intro s _
    simp [Function.const]
  rw [hmap, List.map_const, List.sum_replicate]
  simp only [List.length_replicate, List.length_range, List.length_cons,
    List.length_append, List.length_singleton, List.length_nil, smul_eq_mul]
  have h3 : w.length + (0 + 1) + 1 - 3 = w.length - 1 := by omega
  rw [h3]

/-- The smoothed path passes through every input waypoint: interior
waypoints appear as the parameter-`0` point of their segment block, the
final waypoint is appended explicitly. -/
lemma smooth_mem (w : List Point) (k : ℕ) (hw : 2 ≤ w.length)
    (hk : 1 ≤ k) : ∀ p ∈ w, p ∈ smooth_path w k := by
  intro p hp
  have hne : w ≠ [] := by
    intro h; subst h; simp at hw
  obtain ⟨i, hi, hip⟩ := List.mem_iff_getElem.mp hp
  rw [smooth_eq_spec w k hw]
  unfold smooth_path_spec
  rw [if_neg (by omega)]
  by_cases hlast : i = w.length - 1
  · apply List.mem_append_right
    have hgl : w.getLastD origin = p := by
      rw [← getD_last_index w origin hne, ← hlast,
        List.getD_eq_getElem w origin hi, hip]
    rw [List.mem_singleton]
    exact hgl.symm
  · apply List.mem_append_left
    rw [List.mem_flatMap]
    refine ⟨i, List.mem_range.mpr (by omega), ?_⟩
    rw [List.mem_map]
    refine ⟨0, List.mem_range.mpr (by omega), ?_⟩
    rw [show (((0 : ℕ) : ℚ) / (k : ℚ)) = 0 by simp, catmullRom_zero,
      List.getD_eq_getElem w origin hi, hip]

/-- C4: for at least two waypoints and density `k ≥ 1`, `smooth_path`
equals the spec's construction (k Catmull-Rom points per consecutive pair
with endpoint-duplicated control points, final waypoint appended), has
exactly `(N-1)·k + 1` points, passes through every input waypoint, and for
exactly two waypoints yields `k` interpolated points plus the final
waypoint. -/
theorem c4_smooth_structure (w : List Point) (k : ℕ) (hw : 2 ≤ w.length)
    (hk : 1 ≤ k) :
    smooth_path w k = smooth_path_spec w k ∧
    (smooth_path w k).length = (w.length - 1) * k + 1 ∧
    (∀ p ∈ w, p ∈ smooth_path w k) ∧
    (w.length = 2 → (smooth_path w k).length = k + 1) :=
  ⟨smooth_eq_spec w k hw, smooth_length w k hw, smooth_mem w k hw hk,
    fun h2 => by rw [smooth_length w k hw, h2]; ring⟩

/-- C4 witness: the hypotheses hold and the theorem applies at the
two-waypoint list `wpair` with density `1`. -/
theorem c4_smooth_structure_witness :
    2 ≤ wpair.length ∧ 1 ≤ 1 ∧
    (smooth_path wpair 1 = smooth_path_spec wpair 1 ∧
      (smooth_path wpair 1).length = (wpair.length - 1) * 1 + 1 ∧
      (∀ p ∈ wpair, p ∈ smooth_path wpair 1) ∧
      (wpair.length = 2 → (smooth_path wpair 1).length = 1 + 1)) :=
  ⟨by simp [wpair], le_refl 1,
    c4_smooth_structure wpair 1 (by simp [wpair]) (le_refl 1)⟩

/-- C5: the last element of the smoothed path is exactly the last input
waypoint (it is appended, not recomputed), and inputs with fewer than two
waypoints are returned unchanged. -/
theorem c5_smooth_last_exact (w : List Point) (k : ℕ) :
    (smooth_path w k).getLast? = w.getLast? ∧
    (w.length < 2 → smooth_path w k = w) := by
  constructor
  · by_cases h : w.length < 2
    · simp [smooth_path, h]
    · have hne : w ≠ [] := by
        intro hh; subst hh; simp at h
      unfold smooth_path
      rw [if_neg h]
      dsimp only
      rw [List.getLast?_concat, List.getLastD_eq_getLast?,
        List.getLast?_eq_getLast w hne, Option.getD_some]
  · intro h
    simp [smooth_path, h]

/-! ### Pruning lemmas (claims C3, C8) -/

/-- A pruning scan returns a subsequence of its input. -/
lemma prunePassAux_sublist (d : Point → Point → ℚ) (hw : ℚ) :
    ∀ (l : List Point) (prev : Point),
      (prunePassAux d hw prev l).1.Sublist l := by
  intro l
  induction l with
  | nil => intro prev; simp [prunePassAux]
  | cons a t ih =>
      intro prev
      cases t with
      | nil => simp [prunePassAux]
      | cons b t' =>
          by_cases hcond : point_to_segment_dist d a prev b ≥ hw
          · simp only [prunePassAux, if_pos hcond]
            exact List.Sublist.cons₂ a (ih a)
          · simp only [prunePassAux, if_neg hcond]
            exact List.Sublist.cons a (ih prev)

/-- A pruning scan keeps the final waypoint. -/
lemma prunePassAux_getLast (d : Point → Point → ℚ) (hw : ℚ) :
    ∀ (l : List Point) (prev : Point), l ≠ [] →
      (prunePassAux d hw prev l).1.getLast? = l.getLast? := by
  intro l
  induction l with
  | nil => intro prev h; simp at h
  | cons a t ih =>
      intro prev _
      cases t with
      | nil => simp [prunePassAux]
      | cons b t' =>
          have hres : (prunePassAux d hw a (b :: t')).1.getLast? =
              (b :: t').getLast? := ih a (by simp)
          have hres' : (prunePassAux d hw prev (b :: t')).1.getLast? =
              (b :: t').getLast? := ih prev (by simp)
          have hcons : ∀ (x : Point) (ll : List Point), ll ≠ [] →
              (x :: ll).getLast? = ll.getLast? := by
            intro x ll hll
            cases ll with
            | nil => simp at hll
            | cons y ys => rw [List.getLast?_cons_cons]
          by_cases hcond : point_to_segment_dist d a prev b ≥ hw
          · simp only [prunePassAux, if_pos hcond]
            have hne : (prunePassAux d hw a (b :: t')).1 ≠ [] := by
              intro hnil
              rw [hnil] at hres
              have hsome : (b :: t').getLast?.isSome = true :=
                List.getLast?_isSome.mpr (by simp)
              rw [← hres] at hsome
              simp at hsome
            rw [hcons _ _ hne, hres, List.getLast?_cons_cons]
          · simp only [prunePassAux, if_neg hcond]
            rw [hres', List.getLast?_cons_cons]

/-- A scan that reports no change returns its input unchanged. -/
lemma prunePassAux_nochange (d : Point → Point → ℚ) (hw : ℚ) :
    ∀ (l : List Point) (prev : Point),
      (prunePassAux d hw prev l).2 = false →
      (prunePassAux d hw prev l).1 = l := by
  intro l
  induction l with
  | nil => intro prev _; simp [prunePassAux]
  | cons a t ih =>
      intro prev hch
      cases t with
      | nil => simp [prunePassAux]
      | cons b t' =>
          by_cases hcond : point_to_segment_dist d a prev b ≥ hw
          · simp only [prunePassAux, if_pos hcond] at hch ⊢
            rw [ih a hch]
          · simp only [prunePassAux, if_neg hcond] at hch
            simp at hch

/-- One pruning pass returns a subsequence of its input. -/
lemma prunePass_sublist (d : Point → Point → ℚ) (hw : ℚ) (w : List Point) :
    (prunePass d hw w).1.Sublist w := by
  cases w with
  | nil => simp [prunePass]
  | cons p0 rest =>
      simp only [prunePass]
      exact List.Sublist.cons₂ p0 (prunePassAux_sublist d hw rest p0)

/-- One pruning pass keeps the first waypoint. -/
lemma prunePass_head (d : Point → Point → ℚ) (hw : ℚ) (w : List Point) :
    (prunePass d hw w).1.head? = w.head? := by
  cases w with
  | nil => simp [prunePass]
  | cons p0 rest => simp [prunePass]

/-- One pruning pass keeps the last waypoint. -/
lemma prunePass_getLast (d : Point → Point → ℚ) (hw : ℚ) (w : List Point) :
    (prunePass d hw w).1.getLast? = w.getLast? := by
  cases w with
  | nil => simp [prunePass]
  | cons p0 rest =>
      cases rest with
      | nil => simp [prunePass, prunePassAux]
      | cons b t =>
          simp only [prunePass]
          have hres := prunePassAux_getLast d hw (b :: t) p0 (by simp)
          have hne : (prunePassAux d hw p0 (b :: t)).1 ≠ [] := by
            intro hnil
            rw [hnil] at hres
            have hsome : (b :: t).getLast?.isSome = true :=
              List.getLast?_isSome.mpr (by simp)
            rw [← hres] at hsome
            simp at hsome
          cases hcase : (prunePassAux d hw p0 (b :: t)).1 with
          | nil => exact absurd hcase hne
          | cons y ys =>
              rw [hcase] at hres
              exact hres.trans List.getLast?_cons_cons.symm

/-- A pass that reports no change returns its input unchanged. -/
lemma prunePass_nochange (d : Point → Point → ℚ) (hw : ℚ) (w : List Point)
    (hch : (prunePass d hw w).2 = false) : (prunePass d hw w).1 = w := by
  cases w with
  | nil => simp [prunePass]
  | cons p0 rest =>
      simp only [prunePass] at hch ⊢
      rw [prunePassAux_nochange d hw rest p0 hch]

/-- The pruning fixed-point loop returns a subsequence of its input. -/
lemma pruneLoop_sublist (d : Point → Point → ℚ) (hw : ℚ) (w : List Point) :
    (pruneLoop d hw w).Sublist w := by
  induction w using pruneLoop.induct d hw with
  | case1 x hch ih =>
      rw [pruneLoop, dif_pos hch]
      exact ih.trans (prunePass_sublist d hw x)
  | case2 x hch =>
      rw [pruneLoop, dif_neg hch]
      exact prunePass_sublist d hw x

/-- The pruning fixed-point loop keeps the first waypoint. -/
lemma pruneLoop_head (d : Point → Point → ℚ) (hw : ℚ) (w : List Point) :
    (pruneLoop d hw w).head? = w.head? := by
  induction w using pruneLoop.induct d hw with
  | case1 x hch ih =>
      rw [pruneLoop, dif_pos hch]
      rw [ih, prunePass_head]
  | case2 x hch =>
      rw [pruneLoop, dif_neg hch]
      exact prunePass_head d hw x

/-- The pruning fixed-point loop keeps the last waypoint. -/
lemma pruneLoop_getLast (d : Point → Point → ℚ) (hw : ℚ) (w : List Point) :
    (pruneLoop d hw w).getLast? = w.getLast? := by
  induction w using pruneLoop.induct d hw with
  | case1 x hch ih =>
      rw [pruneLoop, dif_pos hch]
      rw [ih, prunePass_getLast]
  | case2 x hch =>
      rw [pruneLoop, dif_neg hch]
      exact prunePass_getLast d hw x

/-- The pruning loop ends in a fixed point: a further pass on its output
removes nothing and returns the output unchanged. -/
lemma pruneLoop_fixpoint (d : Point → Point → ℚ) (hw : ℚ) (w : List Point) :
    prunePass d hw (pruneLoop d hw w) = (pruneLoop d hw w, false) := by
  induction w using pruneLoop.induct d hw with
  | case1 x hch ih =>
      rw [pruneLoop, dif_pos hch]
      exact ih
  | case2 x hch =>
      rw [pruneLoop, dif_neg hch]
      have hf : (prunePass d hw x).2 = false := by
        revert hch
        cases (prunePass d hw x).2 <;> simp
      have h1 := prunePass_nochange d hw x hf
      rw [h1]
      exact Prod.ext_iff.mpr ⟨h1, hf⟩

/-- C3: pruning returns an ordered subsequence of the waypoints, never
longer than the input, with the first and last waypoints preserved
exactly; inputs of length at most two are returned unchanged. -/
theorem c3_prune_subsequence (d : Point → Point → ℚ) (w : List Point)
    (ihw : ℚ) (hpos : 0 < ihw) :
    (prune_waypoints d w ihw).Sublist w ∧
    (prune_waypoints d w ihw).length ≤ w.length ∧
    (prune_waypoints d w ihw).head? = w.head? ∧
    (prune_waypoints d w ihw).getLast? = w.getLast? ∧
    (w.length ≤ 2 → prune_waypoints d w ihw = w) := by
  unfold prune_waypoints
  by_cases h2 : w.length ≤ 2
  · simp [h2]
  · rw [if_neg h2]
    have hs := pruneLoop_sublist d ihw w
    exact ⟨hs, hs.length_le, pruneLoop_head d ihw w, pruneLoop_getLast d ihw w,
      fun hh => absurd hh h2⟩

/-- C3 witness: the theorem applied to the three-point list `wtriple` and
the intake half-width. -/
theorem c3_prune_subsequence_witness :
    (0 : ℚ) < INTAKE_HALF_WIDTH ∧
    ((prune_waypoints dM wtriple INTAKE_HALF_WIDTH).Sublist wtriple ∧
      (prune_waypoints dM wtriple INTAKE_HALF_WIDTH).length ≤ wtriple.length ∧
      (prune_waypoints dM wtriple INTAKE_HALF_WIDTH).head? = wtriple.head? ∧
      (prune_waypoints dM wtriple INTAKE_HALF_WIDTH).getLast? =
        wtriple.getLast? ∧
      (wtriple.length ≤ 2 →
        prune_waypoints dM wtriple INTAKE_HALF_WIDTH = wtriple)) :=
  ⟨by norm_num [INTAKE_HALF_WIDTH],
    c3_prune_subsequence dM wtriple INTAKE_HALF_WIDTH
      (by norm_num [INTAKE_HALF_WIDTH])⟩

/-- C8: pruning is idempotent — pruning an already-pruned waypoint list
returns it unchanged, because the loop only stops at a pass that removes
nothing, and such a pass recomputes identically on the output. -/
theorem c8_prune_idempotent (d : Point → Point → ℚ) (w : List Point)
    (ihw : ℚ) (hpos : 0 < ihw) :
    prune_waypoints d (prune_waypoints d w ihw) ihw =
      prune_waypoints d w ihw := by
  unfold prune_waypoints
  by_cases h2 : w.length ≤ 2
  · simp [h2]
  · rw [if_neg h2]
    by_cases h3 : (pruneLoop d ihw w).length ≤ 2
    · rw [if_pos h3]
    · rw [if_neg h3]
      conv_lhs => rw [pruneLoop]
      rw [dif_neg (by rw [pruneLoop_fixpoint]; simp)]
      exact congrArg Prod.fst (pruneLoop_fixpoint d ihw w)

/-- C8 witness: idempotence at the concrete list `wtriple` (whose middle
point the first pruning run removes). -/
theorem c8_prune_idempotent_witness :
    (0 : ℚ) < INTAKE_HALF_WIDTH ∧
    prune_waypoints dM (prune_waypoints dM wtriple INTAKE_HALF_WIDTH)
        INTAKE_HALF_WIDTH =
      prune_waypoints dM wtriple INTAKE_HALF_WIDTH :=
  ⟨by norm_num [INTAKE_HALF_WIDTH],
    c8_prune_idempotent dM wtriple INTAKE_HALF_WIDTH
      (by norm_num [INTAKE_HALF_WIDTH])⟩

/-! ### Nearest-neighbor lemmas (claim C9) -/

/-- `argminList` returns an in-range index on a nonempty list. -/
lemma argminList_lt (l : List ℚ) (h : l ≠ []) : argminList l < l.length := by
  induction l with
  | nil => simp at h
  | cons x xs ih =>
      by_cases hxs : xs = []
      · subst hxs; simp [argminList]
      · simp only [argminList]
        rw [if_neg hxs]
        split
        · simp
        · have := ih hxs
          simp only [List.length_cons]
          omega

/-- `argminList` attains the minimum value of the list. -/
lemma argminList_min (l : List ℚ) (h : l ≠ []) :
    ∀ j, j < l.length → l.getD (argminList l) 0 ≤ l.getD j 0 := by
  induction l with
  | nil => simp at h
  | cons x xs ih =>
      intro j hj
      by_cases hxs : xs = []
      · subst hxs
        simp only [List.length_cons, List.length_nil] at hj
        interval_cases j
        simp [argminList]
      · simp only [argminList]
        rw [if_neg hxs]
        by_cases hle : x ≤ xs.getD (argminList xs) 0
        · rw [if_pos hle, List.getD_cons_zero]
          cases j with
          | zero => simp
          | succ n =>
              rw [List.getD_cons_succ]
              exact hle.trans (ih hxs n (by simpa using hj))
        · rw [if_neg hle, List.getD_cons_succ]
          cases j with
          | zero =>
              rw [List.getD_cons_zero]
              exact (lt_of_not_le hle).le
          | succ n =>
              rw [List.getD_cons_succ]
              exact ih hxs n (by simpa using hj)

/-- `argminList` returns the first index attaining the minimum: every
strictly earlier entry is strictly larger. -/
lemma argminList_first (l : List ℚ) :
    ∀ j, j < argminList l → l.getD (argminList l) 0 < l.getD j 0 := by
  induction l with
  | nil => simp [argminList]
  | cons x xs ih =>
      intro j hj
      by_cases hxs : xs = []
      · subst hxs; simp [argminList] at hj
      · simp only [argminList] at hj ⊢
        rw [if_neg hxs] at hj ⊢
        by_cases hle : x ≤ xs.getD (argminList xs) 0
        · rw [if_pos hle] at hj
          omega
        · rw [if_neg hle] at hj ⊢
          rw [List.getD_cons_succ]
          cases j with
          | zero =>
              rw [List.getD_cons_zero]
              exact lt_of_not_le hle
          | succ n =>
              rw [List.getD_cons_succ]
              exact ih n (by omega)

/-- Reading a mapped list at an in-range index. -/
lemma getD_map_idx (l : List ℕ) (f : ℕ → Point) (k : ℕ) (hk : k < l.length) :
    (l.map f).getD k origin = f (l.getD k 0) := by
  rw [List.getD_eq_getElem _ _ (by simpa using hk),
    List.getD_eq_getElem _ _ hk, List.getElem_map]

/-- `eraseIdx` commutes with `map`. -/
lemma map_eraseIdx (l : List ℕ) (f : ℕ → Point) (k : ℕ) :
    (l.eraseIdx k).map f = (l.map f).eraseIdx k := by
  induction l generalizing k with
  | nil => simp
  | cons a t ih =>
      cases k with
      | zero => simp
      | succ n => simp [List.eraseIdx_cons_succ, ih]

/-- Removing the element at an in-range index and re-consing it is a
permutation. -/
lemma perm_cons_eraseIdx (l : List ℕ) (k : ℕ) (hk : k < l.length) :
    (l.getD k 0 :: l.eraseIdx k).Perm l := by
  induction l generalizing k with
  | nil => simp at hk
  | cons a t ih =>
      cases k with
      | zero => simp
      | succ n =>
          rw [List.getD_cons_succ, List.eraseIdx_cons_succ]
          exact (List.Perm.swap a (t.getD n 0) (t.eraseIdx n)).trans
            ((ih n (by simpa using hk)).cons a)

/-- Mapping `getD` over the index range recovers the point list. -/
lemma map_getD_range (l : List Point) :
    (List.range l.length).map (fun i => l.getD i origin) = l := by
  apply List.ext_getElem
  · simp
  · intro n h1 h2
    rw [List.getElem_map, List.getElem_range,
      List.getD_eq_getElem l origin h2]

/-- The index list `nnAux` produces is a permutation of the remaining
indices. -/
lemma nnAux_perm (d : Point → Point → ℚ) (points : List Point) :
    ∀ (remaining : List ℕ) (current : Point),
      (nnAux d points remaining current).Perm remaining := by
  intro remaining current
  induction remaining, current using nnAux.induct d points with
  | case1 current => rw [nnAux]
  | case2 r rs current remaining k chosen ih =>
      rw [nnAux]
      have hk : k < remaining.length := by
        have h0 := argminList_lt (remaining.map
          (fun i => d (points.getD i origin) current)) (by simp [remaining])
        rw [List.length_map] at h0
        exact h0
      exact (ih.cons chosen).trans (perm_cons_eraseIdx remaining k hk)

/-- The nearest-neighbor ordering is a permutation of its input. -/
lemma nn_order_perm (d : Point → Point → ℚ) (points : List Point)
    (start : Point) :
    (nearest_neighbor_order d points start).Perm points := by
  unfold nearest_neighbor_order
  have h1 := (nnAux_perm d points (List.range points.length) start).map
    (fun i => points.getD i origin)
  rwa [map_getD_range] at h1

/-- `nnAux` implements the spec's greedy selection on the corresponding
point values. -/
lemma nnAux_greedy (d : Point → Point → ℚ) (points : List Point) :
    ∀ (remaining : List ℕ) (current : Point),
      GreedySpec d (remaining.map (fun i => points.getD i origin)) current
        ((nnAux d points remaining current).map
          (fun i => points.getD i origin)) := by
  intro remaining current
  induction remaining, current using nnAux.induct d points with
  | case1 current =>
      rw [nnAux]
      exact GreedySpec.nil current
  | case2 r rs current remaining k chosen ih =>
      have hmapne : (remaining.map
          (fun i => d (points.getD i origin) current)) ≠ [] := by
        simp [remaining]
      have hkl : k < remaining.length := by
        have h0 := argminList_lt _ hmapne
        rw [List.length_map] at h0
        exact h0
      have hgetD : (remaining.map (fun i => points.getD i origin)).getD k origin
          = points.getD chosen origin := getD_map_idx remaining _ k hkl
      have hunfold : (nnAux d points remaining current).map
          (fun i => points.getD i origin) =
          points.getD chosen origin ::
            (nnAux d points (remaining.eraseIdx k)
              (points.getD chosen origin)).map
              (fun i => points.getD i origin) := by
        rw [nnAux]
        exact List.map_cons _ _ _
      rw [hunfold, ← hgetD]
      have hdists : ∀ j, j < remaining.length →
          (remaining.map (fun i => d (points.getD i origin) current)).getD j 0
          = d ((remaining.map (fun i => points.getD i origin)).getD j origin)
            current := by
        intro j hj
        rw [List.getD_eq_getElem _ _ (by simpa using hj),
          List.getD_eq_getElem _ _ (by simpa using hj),
          List.getElem_map, List.getElem_map]
      apply GreedySpec.step
      · simpa using hkl
      · intro j hj
        have hj' : j < remaining.length := by simpa using hj
        rw [← hdists _ hkl, ← hdists _ hj']
        exact argminList_min _ hmapne j (by simpa using hj')
      · intro j hj
        have hj' : j < remaining.length := lt_trans hj hkl
        rw [← hdists _ hkl, ← hdists _ hj']
        exact argminList_first _ j hj
      · rw [← map_eraseIdx, hgetD]
        exact ih

/-- C9: nearest-neighbor ordering returns exactly as many points as it is
given, a permutation of the input, and the ordering follows the spec's
greedy rule (repeatedly take the first-encountered nearest remaining point,
append it, and advance the current position to it). -/
theorem c9_nearest_neighbor (d : Point → Point → ℚ) (points : List Point)
    (start : Point) :
    (nearest_neighbor_order d points start).length = points.length ∧
    (nearest_neighbor_order d points start).Perm points ∧
    GreedySpec d points start (nearest_neighbor_order d points start) := by
  have hperm := nn_order_perm d points start
  refine ⟨hperm.length_eq, hperm, ?_⟩
  have h2 := nnAux_greedy d points (List.range points.length) start
  rwa [map_getD_range] at h2

/-! ### 2-opt lemmas (claims C2, C7) -/

/-- The 2-opt epsilon guard is positive. -/
lemma twoOptEps_pos : (0 : ℚ) < twoOptEps := by norm_num [twoOptEps]

/-- Path length of an appended list splits around the joining edge. -/
lemma path_distance_append (d : Point → Point → ℚ) (xs ys : List Point)
    (hxs : xs ≠ []) (hys : ys ≠ []) :
    path_distance d (xs ++ ys) = path_distance d xs +
      d (xs.getLastD origin) (ys.headD origin) + path_distance d ys := by
  induction xs with
  | nil => simp at hxs
  | cons a t ih =>
      cases t with
      | nil =>
          cases ys with
          | nil => simp at hys
          | cons y ys' => simp [path_distance]
      | cons b t' =>
          have hmid := ih (by simp)
          simp only [List.cons_append] at hmid ⊢
          rw [show path_distance d (a :: b :: (t' ++ ys)) =
              d a b + path_distance d (b :: (t' ++ ys)) from rfl]
          rw [hmid]
          rw [show path_distance d (a :: b :: t') =
              d a b + path_distance d (b :: t') from rfl]
          rw [show (a :: b :: t').getLastD origin =
              (b :: t').getLastD origin from by
            rw [List.getLastD_eq_getLast?, List.getLastD_eq_getLast?,
              List.getLast?_cons_cons]]
          ring

/-- Path length is invariant under reversal when the distance is
symmetric. -/
lemma path_distance_reverse (d : Point → Point → ℚ)
    (hsymm : ∀ p q, d p q = d q p) (l : List Point) :
    path_distance d l.reverse = path_distance d l := by
  induction l with
  | nil => simp
  | cons a t ih =>
      cases t with
      | nil => simp
      | cons b t' =>
          rw [List.reverse_cons,
            path_distance_append d (b :: t').reverse [a] (by simp) (by simp)]
          rw [ih]
          have hrl : ((b :: t').reverse).getLastD origin =
              (b :: t').headD origin := by
            rw [List.getLastD_eq_getLast?, List.getLast?_reverse]
            rfl
          rw [hrl]
          rw [show path_distance d (a :: b :: t') =
              d a b + path_distance d (b :: t') from rfl]
          simp only [path_distance, List.headD]
          rw [hsymm b a]
          ring

/-- Nonnegative distances give nonnegative path lengths. -/
lemma path_distance_nonneg (d : Point → Point → ℚ)
    (hnn : ∀ p q, 0 ≤ d p q) (l : List Point) :
    0 ≤ path_distance d l := by
  induction l with
  | nil => simp [path_distance]
  | cons a t ih =>
      cases t with
      | nil => simp [path_distance]
      | cons b t' =>
          rw [path_distance]
          have := hnn a b
          positivity

/-- Head of a nonempty prefix. -/
lemma headD_append_left (xs ys : List Point) (h : xs ≠ []) :
    (xs ++ ys).headD origin = xs.headD origin := by
  cases xs with
  | nil => simp at h
  | cons a t => simp

/-- Last element of an append with nonempty suffix. -/
lemma getLastD_append_right (xs ys : List Point) (h : ys ≠ []) :
    (xs ++ ys).getLastD origin = ys.getLastD origin := by
  rw [List.getLastD_eq_getLast?, List.getLastD_eq_getLast?,
    List.getLast?_append]
  cases hy : ys.getLast? with
  | none =>
      rw [List.getLast?_eq_none_iff] at hy
      exact absurd hy h
  | some y => rfl

/-- Last element of a nonempty `take`. -/
lemma take_getLastD (t : List Point) (a : ℕ) (h1 : 1 ≤ a)
    (h2 : a ≤ t.length) :
    (t.take a).getLastD origin = t.getD (a - 1) origin := by
  have hlen : (t.take a).length = a := by
    rw [List.length_take]
    omega
  have hne : t.take a ≠ [] := by
    intro h
    rw [h] at hlen
    simp at hlen
    omega
  rw [← getD_last_index _ origin hne, hlen,
    List.getD_eq_getElem _ _ (by omega), List.getD_eq_getElem _ _ (by omega),
    List.getElem_take]

/-- Head of a nonempty `drop`. -/
lemma drop_headD (t : List Point) (b : ℕ) (h : b < t.length) :
    (t.drop b).headD origin = t.getD b origin := by
  rw [headD_eq_getD_zero, List.getD_eq_getElem _ _ (by simp; omega),
    List.getD_eq_getElem _ _ h, List.getElem_drop]
  simp

/-- Head of a nonempty `take`. -/
lemma take_headD (l : List Point) (m : ℕ) (h : 1 ≤ m) :
    (l.take m).headD origin = l.headD origin := by
  cases l with
  | nil => simp
  | cons x xs =>
      cases m with
      | zero => omega
      | succ n => simp

/-- Reading a `drop` at an in-range index. -/
lemma drop_getD (l : List Point) (a m : ℕ) (h : a + m < l.length) :
    (l.drop a).getD m origin = l.getD (a + m) origin := by
  rw [List.getD_eq_getElem _ _ (by rw [List.length_drop]; omega),
    List.getD_eq_getElem _ _ h, List.getElem_drop]

/-- Head of a reversed list is its last element. -/
lemma reverse_headD (l : List Point) :
    l.reverse.headD origin = l.getLastD origin := by
  rw [List.headD_eq_head?, List.head?_reverse, List.getLastD_eq_getLast?]

/-- Last element of a reversed list is its head. -/
lemma reverse_getLastD (l : List Point) :
    l.reverse.getLastD origin = l.headD origin := by
  rw [List.getLastD_eq_getLast?, List.getLast?_reverse, List.headD_eq_head?]

/-- The three-piece decomposition the python slice assignment acts on. -/
lemma segment_decomp (t : List Point) (a b : ℕ) (hab : a ≤ b) :
    t = t.take a ++ ((t.drop a).take (b - a) ++ t.drop b) := by
  have h1 : (t.drop a).drop (b - a) = t.drop b := by
    rw [List.drop_drop]
    congr 1
    omega
  rw [← h1, List.take_append_drop, List.take_append_drop]

/-- Reversing an inner segment permutes the tour. -/
lemma reverseSegment_perm (t : List Point) (a b : ℕ) (hab : a ≤ b) :
    (reverseSegment t a b).Perm t := by
  unfold reverseSegment
  conv_rhs => rw [segment_decomp t a b hab, ← List.append_assoc]
  exact List.Perm.append_right (t.drop b)
    (List.Perm.append_left (t.take a) (List.reverse_perm _))

/-- Reversing an inner segment preserves length. -/
lemma reverseSegment_length (t : List Point) (a b : ℕ) (hab : a ≤ b) :
    (reverseSegment t a b).length = t.length :=
  (reverseSegment_perm t a b hab).length_eq

/-- Reversing a segment that starts after the head preserves the head. -/
lemma reverseSegment_head (t : List Point) (a b : ℕ) (ha : 1 ≤ a) :
    (reverseSegment t a b).head? = t.head? := by
  unfold reverseSegment
  cases t with
  | nil => simp
  | cons x xs =>
      cases a with
      | zero => omega
      | succ n =>
          rw [List.take_succ_cons, List.cons_append, List.cons_append]
          simp

/-- Key accounting identity: reversing the slice `tour[i+1 : j+1]` changes
the total path length by exactly `d_new - d_old`, for a symmetric
distance. -/
lemma reverseSegment_path_distance (d : Point → Point → ℚ)
    (hsymm : ∀ p q, d p q = d q p) (t : List Point) (i j : ℕ)
    (hij : i + 2 ≤ j) (hj : j < t.length) :
    path_distance d (reverseSegment t (i + 1) (j + 1)) =
      path_distance d t + dNewSum d t i j - dOldSum d t i j := by
  have hab : i + 1 ≤ j + 1 := by omega
  have hblen : j + 1 ≤ t.length := by omega
  have hAlast : (t.take (i + 1)).getLastD origin = t.getD i origin := by
    rw [take_getLastD t (i + 1) (by omega) (by omega)]
    congr 1
  have hBhead : ((t.drop (i + 1)).take (j + 1 - (i + 1))).headD origin =
      t.getD (i + 1) origin := by
    rw [take_headD _ _ (by omega), drop_headD _ _ (by omega)]
  have hBlast : ((t.drop (i + 1)).take (j + 1 - (i + 1))).getLastD origin =
      t.getD j origin := by
    rw [take_getLastD (t.drop (i + 1)) (j + 1 - (i + 1)) (by omega)
      (by rw [List.length_drop]; omega)]
    rw [drop_getD _ _ _ (by omega)]
    congr 1
    omega
  have hAne : t.take (i + 1) ≠ [] := by
    have : (t.take (i + 1)).length = i + 1 := by
      rw [List.length_take]
      omega
    intro h
    rw [h] at this
    simp at this
  have hBne : (t.drop (i + 1)).take (j + 1 - (i + 1)) ≠ [] := by
    have : ((t.drop (i + 1)).take (j + 1 - (i + 1))).length = j - i := by
      rw [List.length_take, List.length_drop]
      omega
    intro h
    rw [h] at this
    simp at this
    omega
  have hrevBne : ((t.drop (i + 1)).take (j + 1 - (i + 1))).reverse ≠ [] := by
    simpa using hBne
  have hdecomp := segment_decomp t (i + 1) (j + 1) hab
  by_cases hC : j + 1 < t.length
  · have hCne : t.drop (j + 1) ≠ [] := by
      have : (t.drop (j + 1)).length = t.length - (j + 1) := by
        rw [List.length_drop]
      intro h
      rw [h] at this
      simp at this
      omega
    have hChead : (t.drop (j + 1)).headD origin = t.getD (j + 1) origin :=
      drop_headD t (j + 1) hC
    have hpdt : path_distance d t =
        path_distance d (t.take (i + 1)) +
          d (t.getD i origin) (t.getD (i + 1) origin) +
          (path_distance d ((t.drop (i + 1)).take (j + 1 - (i + 1))) +
            d (t.getD j origin) (t.getD (j + 1) origin) +
            path_distance d (t.drop (j + 1))) := by
      conv_lhs => rw [hdecomp]
      rw [path_distance_append d _ _ hAne
          (by intro h; exact hBne (List.append_eq_nil.mp h).1),
        path_distance_append d _ _ hBne hCne,
        headD_append_left _ _ hBne, hAlast, hBhead, hBlast, hChead]
    have hpdrev : path_distance d (reverseSegment t (i + 1) (j + 1)) =
        path_distance d (t.take (i + 1)) +
          d (t.getD i origin) (t.getD j origin) +
          (path_distance d ((t.drop (i + 1)).take (j + 1 - (i + 1))) +
            d (t.getD (i + 1) origin) (t.getD (j + 1) origin) +
            path_distance d (t.drop (j + 1))) := by
      unfold reverseSegment
      rw [List.append_assoc,
        path_distance_append d _ _ hAne
          (by intro h; exact hrevBne (List.append_eq_nil.mp h).1),
        path_distance_append d _ _ hrevBne hCne,
        headD_append_left _ _ hrevBne, hAlast, reverse_headD, hBlast,
        reverse_getLastD, hBhead, hChead,
        path_distance_reverse d hsymm]
    rw [hpdt, hpdrev, dNewSum, dOldSum, if_pos hC, if_pos hC]
    ring
  · have hCnil : t.drop (j + 1) = [] := by
      rw [List.drop_eq_nil_iff]
      omega
    have hpdt : path_distance d t =
        path_distance d (t.take (i + 1)) +
          d (t.getD i origin) (t.getD (i + 1) origin) +
          path_distance d ((t.drop (i + 1)).take (j + 1 - (i + 1))) := by
      conv_lhs => rw [hdecomp]
      rw [hCnil, List.append_nil,
        path_distance_append d _ _ hAne hBne, hAlast, hBhead]
    have hpdrev : path_distance d (reverseSegment t (i + 1) (j + 1)) =
        path_distance d (t.take (i + 1)) +
          d (t.getD i origin) (t.getD j origin) +
          path_distance d ((t.drop (i + 1)).take (j + 1 - (i + 1))) := by
      unfold reverseSegment
      rw [hCnil, List.append_nil,
        path_distance_append d _ _ hAne hrevBne, hAlast, reverse_headD,
        hBlast, path_distance_reverse d hsymm]
    rw [hpdt, hpdrev, dNewSum, dOldSum, if_neg hC, if_neg hC]
    ring

/-- Every pair the nested loops visit satisfies `i + 2 ≤ j < n`. -/
lemma sweepPairs_mem (n : ℕ) (p : ℕ × ℕ) (hp : p ∈ sweepPairs n) :
    p.1 + 2 ≤ p.2 ∧ p.2 < n := by
  unfold sweepPairs at hp
  rw [List.mem_flatMap] at hp
  obtain ⟨i, hi, hmem⟩ := hp
  rw [List.mem_map] at hmem
  obtain ⟨j, hj, hpe⟩ := hmem
  rw [List.mem_range'] at hj
  obtain ⟨k, hk, hjk⟩ := hj
  subst hpe
  constructor <;> simp <;> omega

/-- Structural invariant of the sweep fold: the tour stays a permutation
of the original with the same first element. -/
lemma foldl_step_struct (d : Point → Point → ℚ) (t0 : List Point) :
    ∀ (l : List (ℕ × ℕ)) (acc : List Point × Bool),
      (∀ p ∈ l, p.1 + 2 ≤ p.2) →
      acc.1.Perm t0 → acc.1.head? = t0.head? →
      ((l.foldl (twoOptStep d) acc).1.Perm t0 ∧
        (l.foldl (twoOptStep d) acc).1.head? = t0.head?) := by
  intro l
  induction l with
  | nil => intro acc _ h1 h2; exact ⟨h1, h2⟩
  | cons p l' ih =>
      intro acc hall h1 h2
      rw [List.foldl_cons]
      have hp := hall p (List.mem_cons_self p l')
      have hperm' : (twoOptStep d acc p).1.Perm t0 := by
        unfold twoOptStep
        split
        · exact (reverseSegment_perm acc.1 (p.1 + 1) (p.2 + 1)
            (by omega)).trans h1
        · exact h1
      have hhead' : (twoOptStep d acc p).1.head? = t0.head? := by
        unfold twoOptStep
        split
        · rw [reverseSegment_head _ _ _ (by omega)]
          exact h2
        · exact h2
      exact ih _ (fun q hq => hall q (List.mem_cons_of_mem _ hq)) hperm' hhead'

/-- Metric invariant of the sweep fold: length is preserved, the path
length never increases, and once a swap has fired the path length sits
strictly more than `twoOptEps` below the original. -/
lemma foldl_step_metric (d : Point → Point → ℚ)
    (hsymm : ∀ p q, d p q = d q p) (t0 : List Point) :
    ∀ (l : List (ℕ × ℕ)) (acc : List Point × Bool),
      (∀ p ∈ l, p.1 + 2 ≤ p.2 ∧ p.2 < t0.length) →
      acc.1.length = t0.length →
      path_distance d acc.1 ≤ path_distance d t0 →
      (acc.2 = true →
        path_distance d acc.1 < path_distance d t0 - twoOptEps) →
      ((l.foldl (twoOptStep d) acc).1.length = t0.length ∧
        path_distance d (l.foldl (twoOptStep d) acc).1 ≤
          path_distance d t0 ∧
        ((l.foldl (twoOptStep d) acc).2 = true →
          path_distance d (l.foldl (twoOptStep d) acc).1 <
            path_distance d t0 - twoOptEps)) := by
  intro l
  induction l with
  | nil => intro acc _ h1 h2 h3; exact ⟨h1, h2, h3⟩
  | cons p l' ih =>
      intro acc hall hlen hle hstrict
      rw [List.foldl_cons]
      have hp := hall p (List.mem_cons_self p l')
      by_cases himp : twoOptImproves d acc.1 p.1 p.2 = true
      · have himp' : dNewSum d acc.1 p.1 p.2 <
            dOldSum d acc.1 p.1 p.2 - twoOptEps := of_decide_eq_true himp
        have hrev := reverseSegment_path_distance d hsymm acc.1 p.1 p.2
          hp.1 (by omega)
        have hstep : twoOptStep d acc p =
            (reverseSegment acc.1 (p.1 + 1) (p.2 + 1), true) := by
          unfold twoOptStep
          rw [if_pos himp]
        rw [hstep]
        refine ih _ (fun q hq => hall q (List.mem_cons_of_mem _ hq)) ?_ ?_ ?_
        · rw [reverseSegment_length _ _ _ (by omega)]
          exact hlen
        · rw [hrev]
          have := twoOptEps_pos
          linarith
        · intro _
          rw [hrev]
          linarith
      · have hstep : twoOptStep d acc p = acc := by
          unfold twoOptStep
          rw [if_neg himp]
        rw [hstep]
        exact ih _ (fun q hq => hall q (List.mem_cons_of_mem _ hq))
          hlen hle hstrict

/-- Once the `improved` flag is set it stays set for the rest of the
sweep. -/
lemma foldl_snd_true (d : Point → Point → ℚ) :
    ∀ (l : List (ℕ × ℕ)) (acc : List Point × Bool), acc.2 = true →
      (l.foldl (twoOptStep d) acc).2 = true := by
  intro l
  induction l with
  | nil => intro acc h; exact h
  | cons p l' ih =>
      intro acc h
      rw [List.foldl_cons]
      apply ih
      unfold twoOptStep
      split
      · rfl
      · exact h

/-- A sweep that ends with the flag still down changed nothing and found
every visited pair non-improving on the unchanged tour. -/
lemma foldl_from_false (d : Point → Point → ℚ) (t : List Point) :
    ∀ (l : List (ℕ × ℕ)),
      (l.foldl (twoOptStep d) (t, false)).2 = false →
      l.foldl (twoOptStep d) (t, false) = (t, false) ∧
        ∀ p ∈ l, twoOptImproves d t p.1 p.2 = false := by
  intro l
  induction l with
  | nil => intro _; exact ⟨rfl, by simp⟩
  | cons p l' ih =>
      intro hfin
      rw [List.foldl_cons] at hfin ⊢
      by_cases himp : twoOptImproves d t p.1 p.2 = true
      · have hstep : twoOptStep d (t, false) p =
            (reverseSegment t (p.1 + 1) (p.2 + 1), true) := by
          unfold twoOptStep
          rw [if_pos himp]
        rw [hstep] at hfin
        rw [foldl_snd_true d l' _ rfl] at hfin
        exact absurd hfin (by simp)
      · have hstep : twoOptStep d (t, false) p = (t, false) := by
          unfold twoOptStep
          rw [if_neg himp]
        rw [hstep] at hfin ⊢
        obtain ⟨heq, hall⟩ := ih hfin
        refine ⟨heq, fun q hq => ?_⟩
        rcases List.mem_cons.mp hq with hq | hq
        · subst hq
          exact Bool.not_eq_true _ |>.mp himp
        · exact hall q hq

/-- A sweep over a tour on which no visited pair improves returns the
tour unchanged with the flag down. -/
lemma foldl_noimprove (d : Point → Point → ℚ) (t : List Point) :
    ∀ (l : List (ℕ × ℕ)),
      (∀ p ∈ l, twoOptImproves d t p.1 p.2 = false) →
      l.foldl (twoOptStep d) (t, false) = (t, false) := by
  intro l
  induction l with
  | nil => intro _; rfl
  | cons p l' ih =>
      intro hall
      rw [List.foldl_cons]
      have hstep : twoOptStep d (t, false) p = (t, false) := by
        unfold twoOptStep
        rw [if_neg (by rw [hall p (List.mem_cons_self p l')]; simp)]
      rw [hstep]
      exact ih (fun q hq => hall q (List.mem_cons_of_mem _ hq))

/-- One sweep keeps the tour a permutation with the same first element. -/
lemma twoOptSweep_struct (d : Point → Point → ℚ) (t : List Point) :
    (twoOptSweep d t).1.Perm t ∧ (twoOptSweep d t).1.head? = t.head? :=
  foldl_step_struct d t (sweepPairs t.length) (t, false)
    (fun p hp => (sweepPairs_mem _ p hp).1) (List.Perm.refl t) rfl

/-- One sweep preserves length, never lengthens the path, and shortens it
by more than the epsilon whenever it reports an improvement. -/
lemma twoOptSweep_metric (d : Point → Point → ℚ)
    (hsymm : ∀ p q, d p q = d q p) (t : List Point) :
    (twoOptSweep d t).1.length = t.length ∧
    path_distance d (twoOptSweep d t).1 ≤ path_distance d t ∧
    ((twoOptSweep d t).2 = true →
      path_distance d (twoOptSweep d t).1 <
        path_distance d t - twoOptEps) :=
  foldl_step_metric d hsymm t (sweepPairs t.length) (t, false)
    (fun p hp => sweepPairs_mem _ p hp) rfl le_rfl (by simp)

/-- The fueled sweep loop keeps the tour a permutation with the same
first element. -/
lemma twoOptLoop_struct (d : Point → Point → ℚ) :
    ∀ (fuel : ℕ) (t : List Point),
      (twoOptLoop d fuel t).Perm t ∧
        (twoOptLoop d fuel t).head? = t.head? := by
  intro fuel
  induction fuel with
  | zero => intro t; exact ⟨List.Perm.refl t, rfl⟩
  | succ m ih =>
      intro t
      rw [twoOptLoop]
      by_cases hs : (twoOptSweep d t).2 = true
      · rw [if_pos hs]
        obtain ⟨hp, hh⟩ := ih (twoOptSweep d t).1
        obtain ⟨hp2, hh2⟩ := twoOptSweep_struct d t
        exact ⟨hp.trans hp2, hh.trans hh2⟩
      · rw [if_neg hs]
        exact twoOptSweep_struct d t

/-- The fueled sweep loop never lengthens the path. -/
lemma twoOptLoop_metric (d : Point → Point → ℚ)
    (hsymm : ∀ p q, d p q = d q p) :
    ∀ (fuel : ℕ) (t : List Point),
      path_distance d (twoOptLoop d fuel t) ≤ path_distance d t := by
  intro fuel
  induction fuel with
  | zero => intro t; exact le_rfl
  | succ m ih =>
      intro t
      rw [twoOptLoop]
      by_cases hs : (twoOptSweep d t).2 = true
      · rw [if_pos hs]
        exact (ih (twoOptSweep d t).1).trans (twoOptSweep_metric d hsymm t).2.1
      · rw [if_neg hs]
        exact (twoOptSweep_metric d hsymm t).2.1

/-- The supplied fuel reaches the loop's fixed point: a further sweep on
the returned tour finds no improvement and leaves it unchanged, so the
fueled loop computes what the unbounded python `while improved:` loop
computes. -/
lemma twoOptLoop_fixed_point (d : Point → Point → ℚ)
    (hsymm : ∀ p q, d p q = d q p) (hnn : ∀ p q, 0 ≤ d p q) :
    ∀ (fuel : ℕ) (t : List Point),
      (⌊path_distance d t / twoOptEps⌋).toNat < fuel →
      twoOptSweep d (twoOptLoop d fuel t) = (twoOptLoop d fuel t, false) := by
  intro fuel
  induction fuel with
  | zero => intro t h; omega
  | succ m ih =>
      intro t hf
      rw [twoOptLoop]
      by_cases hs : (twoOptSweep d t).2 = true
      · rw [if_pos hs]
        apply ih
        have hm := (twoOptSweep_metric d hsymm t).2.2 hs
        have heps := twoOptEps_pos
        have hnn1 := path_distance_nonneg d hnn (twoOptSweep d t).1
        have hdiv : path_distance d (twoOptSweep d t).1 / twoOptEps <
            path_distance d t / twoOptEps - 1 := by
          have h1 : path_distance d (twoOptSweep d t).1 / twoOptEps <
              (path_distance d t - twoOptEps) / twoOptEps :=
            (div_lt_div_right heps).mpr hm
          rw [sub_div, div_self (ne_of_gt heps)] at h1
          exact h1
        have hfl : ⌊path_distance d (twoOptSweep d t).1 / twoOptEps⌋ ≤
            ⌊path_distance d t / twoOptEps⌋ - 1 := by
          calc ⌊path_distance d (twoOptSweep d t).1 / twoOptEps⌋
              ≤ ⌊path_distance d t / twoOptEps - 1⌋ :=
                Int.floor_le_floor hdiv.le
            _ = ⌊path_distance d t / twoOptEps⌋ - 1 := by
                rw [show (1 : ℚ) = ((1 : ℤ) : ℚ) by norm_num,
                  Int.floor_sub_int]
        have hfl0 : 0 ≤ ⌊path_distance d (twoOptSweep d t).1 / twoOptEps⌋ :=
          Int.floor_nonneg.mpr (div_nonneg hnn1 heps.le)
        omega
      · rw [if_neg hs]
        have hs' : (twoOptSweep d t).2 = false := by
          revert hs
          cases (twoOptSweep d t).2 <;> simp
        have heq' : twoOptSweep d t = (t, false) := by
          unfold twoOptSweep at hs' ⊢
          exact (foldl_from_false d t _ hs').1
        rw [heq']
        exact heq'

/-- C7: 2-opt refinement returns a rearrangement of its input — every
input point appears exactly once in the output — and the first element
(the robot position) is unchanged. -/
theorem c7_two_opt_rearrangement (d : Point → Point → ℚ) (t : List Point) :
    (two_opt_improve d t).Perm t ∧
      (two_opt_improve d t).head? = t.head? := by
  unfold two_opt_improve
  by_cases h4 : t.length < 4
  · rw [if_pos h4]
    exact ⟨List.Perm.refl t, rfl⟩
  · rw [if_neg h4]
    exact twoOptLoop_struct d (twoOptFuel d t) t

/-- C2 (amended): 2-opt never lengthens the tour; for tours of at least 4
points, length is preserved exactly iff no visited pair is improving under
the epsilon guard; tours of fewer than 4 points are returned unchanged
(so their length is trivially preserved even when a length-3 tour admits
an improving pair, see the counterexample). -/
theorem c2_two_opt_length_amended (d : Point → Point → ℚ)
    (hsymm : ∀ p q, d p q = d q p) (t : List Point) :
    path_distance d (two_opt_improve d t) ≤ path_distance d t ∧
    (4 ≤ t.length →
      (path_distance d (two_opt_improve d t) = path_distance d t ↔
        ∀ p ∈ sweepPairs t.length, twoOptImproves d t p.1 p.2 = false)) ∧
    (t.length < 4 → two_opt_improve d t = t) := by
  refine ⟨?_, ?_, ?_⟩
  · unfold two_opt_improve
    by_cases h4 : t.length < 4
    · rw [if_pos h4]
    · rw [if_neg h4]
      exact twoOptLoop_metric d hsymm (twoOptFuel d t) t
  · intro h4
    have hne4 : ¬ t.length < 4 := by omega
    unfold two_opt_improve
    rw [if_neg hne4]
    constructor
    · intro heq
      by_contra hnall
      push_neg at hnall
      obtain ⟨p, hp, himp⟩ := hnall
      have himp' : twoOptImproves d t p.1 p.2 = true := by
        revert himp
        cases (twoOptImproves d t p.1 p.2) <;> simp
      have hsnd : (twoOptSweep d t).2 = true := by
        by_contra hfb
        have hf' : (twoOptSweep d t).2 = false := by
          revert hfb
          cases (twoOptSweep d t).2 <;> simp
        obtain ⟨_, hall⟩ := foldl_from_false d t (sweepPairs t.length)
          (by unfold twoOptSweep at hf'; exact hf')
        rw [hall p hp] at himp'
        simp at himp'
      have hlt := (twoOptSweep_metric d hsymm t).2.2 hsnd
      rw [show twoOptFuel d t =
        (⌊path_distance d t / twoOptEps⌋).toNat + 1 from rfl] at heq
      rw [twoOptLoop] at heq
      rw [if_pos hsnd] at heq
      have hrest := twoOptLoop_metric d hsymm
        (⌊path_distance d t / twoOptEps⌋).toNat (twoOptSweep d t).1
      have heps := twoOptEps_pos
      linarith
    · intro hall
      have hsweep : twoOptSweep d t = (t, false) := by
        unfold twoOptSweep
        exact foldl_noimprove d t _ hall
      rw [show twoOptFuel d t =
        (⌊path_distance d t / twoOptEps⌋).toNat + 1 from rfl]
      rw [twoOptLoop]
      rw [hsweep]
      simp
  · intro h4
    unfold two_opt_improve
    rw [if_pos h4]

/-- C2 counterexample: the three-point tour `tour3` admits an improving
2-opt pair `(0, 2)` under the epsilon guard, yet `two_opt_improve`
returns it unchanged, so its length is preserved while an improving swap
exists — refuting the unrestricted "equality iff no improving swap". -/
theorem c2_two_opt_counterexample :
    path_distance dM (two_opt_improve dM tour3) = path_distance dM tour3 ∧
    (0, 2) ∈ sweepPairs tour3.length ∧
    twoOptImproves dM tour3 0 2 = true := by
  refine ⟨?_, ?_, ?_⟩
  · rw [show two_opt_improve dM tour3 = tour3 from by
      unfold two_opt_improve
      rw [if_pos (by simp [tour3])]]
  · decide
  · unfold twoOptImproves
    rw [decide_eq_true_eq]
    norm_num [dNewSum, dOldSum, tour3, dM, twoOptEps]

/-- Symmetry of the concrete witness distance. -/
lemma dM_symm : ∀ p q : Point, dM p q = dM q p := by
  intro p q
  unfold dM
  rw [abs_sub_comm, abs_sub_comm p.2]

/-- Nonnegativity of the concrete witness distance. -/
lemma dM_nonneg : ∀ p q : Point, 0 ≤ dM p q := by
  intro p q
  unfold dM
  positivity

/-- C2 witness: the symmetry hypothesis holds for `dM` and the amended
theorem applies at the four-point tour `tour4`. -/
theorem c2_two_opt_length_amended_witness :
    (∀ p q : Point, dM p q = dM q p) ∧
    (path_distance dM (two_opt_improve dM tour4) ≤ path_distance dM tour4 ∧
      (4 ≤ tour4.length →
        (path_distance dM (two_opt_improve dM tour4) =
            path_distance dM tour4 ↔
          ∀ p ∈ sweepPairs tour4.length,
            twoOptImproves dM tour4 p.1 p.2 = false)) ∧
      (tour4.length < 4 → two_opt_improve dM tour4 = tour4)) :=
  ⟨dM_symm, c2_two_opt_length_amended dM dM_symm tour4⟩

/-! ### Cluster-selection lemmas (claim C6) -/

/-- A `min` fold is a lower bound for its seed and every element. -/
lemma foldl_min_le (xs : List ℚ) :
    ∀ (x : ℚ), xs.foldl min x ≤ x ∧ ∀ y ∈ xs, xs.foldl min x ≤ y := by
  induction xs with
  | nil => intro x; exact ⟨le_rfl, by simp⟩
  | cons a t ih =>
      intro x
      rw [List.foldl_cons]
      obtain ⟨h1, h2⟩ := ih (min x a)
      refine ⟨h1.trans (min_le_left x a), fun y hy => ?_⟩
      rcases List.mem_cons.mp hy with hy | hy
      · rw [hy]
        exact h1.trans (min_le_right x a)
      · exact h2 y hy

/-- A `min` fold returns its seed or one of its elements. -/
lemma foldl_min_mem (xs : List ℚ) :
    ∀ (x : ℚ), xs.foldl min x = x ∨ xs.foldl min x ∈ xs := by
  induction xs with
  | nil => intro x; exact Or.inl rfl
  | cons a t ih =>
      intro x
      rw [List.foldl_cons]
      rcases min_choice x a with hm | hm
      · rw [hm]
        rcases ih x with h | h
        · exact Or.inl h
        · exact Or.inr (List.mem_cons_of_mem a h)
      · rw [hm]
        rcases ih a with h | h
        · exact Or.inr (by rw [h]; exact List.mem_cons_self a t)
        · exact Or.inr (List.mem_cons_of_mem a h)

/-- `listMin` is a lower bound for every element. -/
lemma listMin_le (l : List ℚ) : ∀ y ∈ l, listMin l ≤ y := by
  cases l with
  | nil => simp
  | cons x xs =>
      intro y hy
      rcases List.mem_cons.mp hy with hy | hy
      · subst hy
        exact (foldl_min_le xs y).1
      · exact (foldl_min_le xs x).2 y hy

/-- `listMin` of a nonempty list is attained by an element. -/
lemma listMin_mem (l : List ℚ) (h : l ≠ []) : listMin l ∈ l := by
  cases l with
  | nil => simp at h
  | cons x xs =>
      show xs.foldl min x ∈ x :: xs
      rcases foldl_min_mem xs x with hm | hm
      · rw [hm]
        exact List.mem_cons_self x xs
      · exact List.mem_cons_of_mem x hm

/-- Scores are nonnegative when the distance is nonnegative and the bias
positive. -/
lemma score_cluster_nonneg (d : Point → Point → ℚ)
    (hnn : ∀ p q, 0 ≤ d p q) (c : List Point) (robot_pos : Point)
    (bias : ℚ) (hb : 0 < bias) :
    0 ≤ (score_cluster d c robot_pos bias).1 := by
  unfold score_cluster
  have hmin : 0 ≤ listMin (c.map (fun p => d p robot_pos)) := by
    cases hc : c.map (fun p => d p robot_pos) with
    | nil => simp [listMin]
    | cons x xs =>
        have := listMin_mem (x :: xs) (by simp)
        rw [← hc] at this ⊢
        rw [List.mem_map] at this
        obtain ⟨p, _, hp⟩ := this
        rw [← hp]
        exact hnn p robot_pos
  have hpos : 0 < listMin (c.map (fun p => d p robot_pos)) + bias := by
    linarith
  exact div_nonneg (by positivity) hpos.le

/-- Characterization of the best-score fold of `select_best_cluster` once
a cluster has been selected: the result is the first cluster strictly
beating the incoming best score and all later scores, or the incoming
triple when nothing beats it. -/
lemma selectFold_spec (d : Point → Point → ℚ) (robot_pos : Point)
    (bias : ℚ) :
    ∀ (l : List (List Point)) (c₀ : List Point) (s₀ m₀ : ℚ),
      (∃ k, k < l.length ∧
        l.foldl (fun (acc : Option (List Point) × ℚ × ℚ) c =>
            let sm := score_cluster d c robot_pos bias
            if sm.1 > acc.2.1 then (some c, sm.1, sm.2) else acc)
          (some c₀, s₀, m₀) =
          (some (l.getD k []),
            (score_cluster d (l.getD k []) robot_pos bias).1,
            (score_cluster d (l.getD k []) robot_pos bias).2) ∧
        s₀ < (score_cluster d (l.getD k []) robot_pos bias).1 ∧
        (∀ j, j < l.length →
          (score_cluster d (l.getD j []) robot_pos bias).1 ≤
            (score_cluster d (l.getD k []) robot_pos bias).1) ∧
        (∀ j, j < k →
          (score_cluster d (l.getD j []) robot_pos bias).1 <
            (score_cluster d (l.getD k []) robot_pos bias).1)) ∨
      (l.foldl (fun (acc : Option (List Point) × ℚ × ℚ) c =>
          let sm := score_cluster d c robot_pos bias
          if sm.1 > acc.2.1 then (some c, sm.1, sm.2) else acc)
        (some c₀, s₀, m₀) = (some c₀, s₀, m₀) ∧
        ∀ c ∈ l, (score_cluster d c robot_pos bias).1 ≤ s₀) := by
  intro l
  induction l with
  | nil => intro c₀ s₀ m₀; exact Or.inr ⟨rfl, by simp⟩
  | cons c tl ih =>
      intro c₀ s₀ m₀
      rw [List.foldl_cons]
      by_cases hgt : (score_cluster d c robot_pos bias).1 > s₀
      · rw [if_pos hgt]
        rcases ih c (score_cluster d c robot_pos bias).1
          (score_cluster d c robot_pos bias).2 with
          ⟨k', hk', hres, hgt', hmax, hfirst⟩ | ⟨hres, hall⟩
        · refine Or.inl ⟨k' + 1, by simpa using hk', ?_, ?_, ?_, ?_⟩
          · rw [List.getD_cons_succ]
            exact hres
          · rw [List.getD_cons_succ]
            exact hgt.trans hgt'
          · intro j hj
            cases j with
            | zero =>
                rw [List.getD_cons_zero, List.getD_cons_succ]
                exact hgt'.le
            | succ n =>
                rw [List.getD_cons_succ, List.getD_cons_succ]
                exact hmax n (by simpa using hj)
          · intro j hj
            cases j with
            | zero =>
                rw [List.getD_cons_zero, List.getD_cons_succ]
                exact hgt'
            | succ n =>
                rw [List.getD_cons_succ, List.getD_cons_succ]
                exact hfirst n (by omega)
        · refine Or.inl ⟨0, by simp, ?_, ?_, ?_, ?_⟩
          · rw [List.getD_cons_zero]
            exact hres
          · rw [List.getD_cons_zero]
            exact hgt
          · intro j hj
            cases j with
            | zero => exact le_rfl
            | succ n =>
                rw [List.getD_cons_succ, List.getD_cons_zero]
                refine (hall (tl.getD n []) ?_)
                have hn : n < tl.length := by simpa using hj
                rw [List.getD_eq_getElem _ _ hn]
                exact List.getElem_mem hn
          · intro j hj
            omega
      · rw [if_neg hgt]
        push_neg at hgt
        rcases ih c₀ s₀ m₀ with
          ⟨k', hk', hres, hgt', hmax, hfirst⟩ | ⟨hres, hall⟩
        · refine Or.inl ⟨k' + 1, by simpa using hk', ?_, ?_, ?_, ?_⟩
          · rw [List.getD_cons_succ]
            exact hres
          · rw [List.getD_cons_succ]
            exact hgt'
          · intro j hj
            cases j with
            | zero =>
                rw [List.getD_cons_zero, List.getD_cons_succ]
                exact hgt.trans hgt'.le
            | succ n =>
                rw [List.getD_cons_succ, List.getD_cons_succ]
                exact hmax n (by simpa using hj)
          · intro j hj
            cases j with
            | zero =>
                rw [List.getD_cons_zero, List.getD_cons_succ]
                exact lt_of_le_of_lt hgt hgt'
            | succ n =>
                rw [List.getD_cons_succ, List.getD_cons_succ]
                exact hfirst n (by omega)
        · refine Or.inr ⟨hres, fun c' hc' => ?_⟩
          rcases List.mem_cons.mp hc' with hc' | hc'
          · subst hc'
            exact hgt
          · exact hall c' hc'

/-- The cluster-mask list of a nonempty ball set is nonempty: seed `0` is
unvisited at its turn and emits a mask, and the mask list only grows. -/
lemma clusterMasks_ne_nil (d : Point → Point → ℚ) (balls : List Point)
    (radius : ℚ) (h : balls ≠ []) : clusterMasks d balls radius ≠ [] := by
  have hmono : ∀ (seeds : List ℕ) (acc : List Bool × List (List Bool)),
      acc.2.length ≤ ((seeds.foldl
        (fun (acc : List Bool × List (List Bool)) seed =>
          if acc.1.getD seed true then acc
          else
            let res := bfs d balls radius (acc.1.set seed true)
              ((List.replicate balls.length false).set seed true) [seed]
            (res.1, acc.2 ++ [res.2]))
        acc).2).length := by
    intro seeds
    induction seeds with
    | nil => intro acc; exact le_rfl
    | cons s st ih =>
        intro acc
        rw [List.foldl_cons]
        refine le_trans ?_ (ih _)
        split
        · exact le_rfl
        · simp
  have hmono' : ∀ (seeds : List ℕ) (acc : List Bool × List (List Bool)),
      acc.2 ≠ [] → ((seeds.foldl
        (fun (acc : List Bool × List (List Bool)) seed =>
          if acc.1.getD seed true then acc
          else
            let res := bfs d balls radius (acc.1.set seed true)
              ((List.replicate balls.length false).set seed true) [seed]
            (res.1, acc.2 ++ [res.2]))
        acc).2) ≠ [] := by
    intro seeds acc hne hnil
    have hlen := hmono seeds acc
    rw [hnil] at hlen
    simp at hlen
    exact hne hlen
  have hn : 0 < balls.length := List.length_pos.mpr h
  unfold clusterMasks
  rw [if_neg (by omega)]
  obtain ⟨m, hm⟩ : ∃ m, balls.length = m + 1 := ⟨balls.length - 1, by omega⟩
  rw [hm, List.range_succ_eq_map, List.foldl_cons]
  rw [if_neg (by
    rw [List.getD_eq_getElem _ _ (by simp)]
    simp)]
  rw [← hm]
  apply hmono'
  simp

/-- C6: on a nonempty ball set `select_best_cluster` returns the first
cluster (in partition order) of strictly greatest score
`size / (min distance + bias)`, along with that score, the minimum
distance from the reference to a member (a genuine minimum), the cluster
size, and the cluster count; on an empty ball set it returns `none`. -/
theorem c6_select_best (d : Point → Point → ℚ) (hnn : ∀ p q, 0 ≤ d p q)
    (balls : List Point) (robot_pos : Point) (radius distance_bias : ℚ)
    (hr : 0 < radius) (hb : 0 < distance_bias) :
    (balls = [] →
      select_best_cluster d balls robot_pos radius distance_bias = none) ∧
    (balls ≠ [] →
      ∃ k, k < (find_all_clusters d balls radius).length ∧
        (∃ sel, select_best_cluster d balls robot_pos radius distance_bias =
            some sel ∧
          sel.cluster = (find_all_clusters d balls radius).getD k [] ∧
          sel.score = (score_cluster d sel.cluster robot_pos
            distance_bias).1 ∧
          sel.min_distance = (score_cluster d sel.cluster robot_pos
            distance_bias).2 ∧
          sel.score = (sel.size : ℚ) / (sel.min_distance + distance_bias) ∧
          sel.size = sel.cluster.length ∧
          sel.num_clusters = (find_all_clusters d balls radius).length ∧
          (∀ p ∈ sel.cluster, sel.min_distance ≤ d p robot_pos) ∧
          (∀ j, j < (find_all_clusters d balls radius).length →
            (score_cluster d ((find_all_clusters d balls radius).getD j [])
              robot_pos distance_bias).1 ≤ sel.score) ∧
          (∀ j, j < k →
            (score_cluster d ((find_all_clusters d balls radius).getD j [])
              robot_pos distance_bias).1 < sel.score))) := by
  constructor
  · intro hempty
    subst hempty
    rfl
  · intro hne
    have hcl : find_all_clusters d balls radius ≠ [] := by
      unfold find_all_clusters
      intro hmap
      exact clusterMasks_ne_nil d balls radius hne (List.map_eq_nil_iff.mp hmap)
    obtain ⟨c, tl, hctl⟩ : ∃ c tl, find_all_clusters d balls radius = c :: tl := by
      cases hcc : find_all_clusters d balls radius with
      | nil => exact absurd hcc hcl
      | cons c tl => exact ⟨c, tl, rfl⟩
    have hstep1 : (find_all_clusters d balls radius).foldl
        (fun (acc : Option (List Point) × ℚ × ℚ) c =>
          let sm := score_cluster d c robot_pos distance_bias
          if sm.1 > acc.2.1 then (some c, sm.1, sm.2) else acc)
        (none, -1, 0) =
        tl.foldl
          (fun (acc : Option (List Point) × ℚ × ℚ) c =>
            let sm := score_cluster d c robot_pos distance_bias
            if sm.1 > acc.2.1 then (some c, sm.1, sm.2) else acc)
          (some c, (score_cluster d c robot_pos distance_bias).1,
            (score_cluster d c robot_pos distance_bias).2) := by
      rw [hctl, List.foldl_cons]
      congr 1
      have hpos := score_cluster_nonneg d hnn c robot_pos distance_bias hb
      rw [if_pos (by simpa using lt_of_lt_of_le (by norm_num) hpos)]
    have hselect : ∀ (b₁ : List Point) (b₂ b₃ : ℚ),
        (find_all_clusters d balls radius).foldl
          (fun (acc : Option (List Point) × ℚ × ℚ) c =>
            let sm := score_cluster d c robot_pos distance_bias
            if sm.1 > acc.2.1 then (some c, sm.1, sm.2) else acc)
          (none, -1, 0) = (some b₁, b₂, b₃) →
        select_best_cluster d balls robot_pos radius distance_bias =
          some { cluster := b₁, score := b₂, min_distance := b₃,
                 size := b₁.length,
                 num_clusters := (find_all_clusters d balls radius).length } := by
      intro b₁ b₂ b₃ hfold
      unfold select_best_cluster
      rw [if_neg hcl, hfold]
      rfl
    have hminle : ∀ (x : List Point), ∀ p ∈ x,
        (score_cluster d x robot_pos distance_bias).2 ≤ d p robot_pos := by
      intro x p hp
      unfold score_cluster
      exact listMin_le _ _ (List.mem_map_of_mem _ hp)
    rcases selectFold_spec d robot_pos distance_bias tl c
      (score_cluster d c robot_pos distance_bias).1
      (score_cluster d c robot_pos distance_bias).2 with
      ⟨k', hk', hres, hgt', hmax, hfirst⟩ | ⟨hres, hall⟩
    · refine ⟨k' + 1, by rw [hctl]; simpa using hk',
        { cluster := tl.getD k' []
          score := (score_cluster d (tl.getD k' []) robot_pos
            distance_bias).1
          min_distance := (score_cluster d (tl.getD k' []) robot_pos
            distance_bias).2
          size := (tl.getD k' []).length
          num_clusters := (find_all_clusters d balls radius).length },
        hselect _ _ _ (by rw [hstep1, hres]), ?_, rfl, rfl, rfl, rfl, rfl,
        hminle _, ?_, ?_⟩
      · rw [hctl, List.getD_cons_succ]
      · intro j hj
        rw [hctl] at hj ⊢
        cases j with
        | zero =>
            rw [List.getD_cons_zero]
            exact hgt'.le
        | succ n =>
            rw [List.getD_cons_succ]
            exact hmax n (by simpa using hj)
      · intro j hj
        rw [hctl]
        cases j with
        | zero =>
            rw [List.getD_cons_zero]
            exact hgt'
        | succ n =>
            rw [List.getD_cons_succ]
            exact hfirst n (by omega)
    · refine ⟨0, by rw [hctl]; simp,
        { cluster := c
          score := (score_cluster d c robot_pos distance_bias).1
          min_distance := (score_cluster d c robot_pos distance_bias).2
          size := c.length
          num_clusters := (find_all_clusters d balls radius).length },
        hselect _ _ _ (by rw [hstep1, hres]), ?_, rfl, rfl, rfl, rfl, rfl,
        hminle _, ?_, ?_⟩
      · rw [hctl, List.getD_cons_zero]
      · intro j hj
        rw [hctl] at hj ⊢
        cases j with
        | zero =>
            rw [List.getD_cons_zero]
        | succ n =>
            rw [List.getD_cons_succ]
            refine hall (tl.getD n []) ?_
            have hn : n < tl.length := by simpa using hj
            rw [List.getD_eq_getElem _ _ hn]
            exact List.getElem_mem hn
      · intro j hj
        omega

/-- C6 witness: the hypotheses hold for `dM`, radius `3/2` and bias
`1/2`, and the theorem applies at the concrete ball set `ballsW`. -/
theorem c6_select_best_witness :
    (∀ p q : Point, 0 ≤ dM p q) ∧ (0 : ℚ) < 3 / 2 ∧ (0 : ℚ) < 1 / 2 ∧
    ((ballsW = [] →
      select_best_cluster dM ballsW robotW (3 / 2) (1 / 2) = none) ∧
    (ballsW ≠ [] →
      ∃ k, k < (find_all_clusters dM ballsW (3 / 2)).length ∧
        (∃ sel, select_best_cluster dM ballsW robotW (3 / 2) (1 / 2) =
            some sel ∧
          sel.cluster = (find_all_clusters dM ballsW (3 / 2)).getD k [] ∧
          sel.score = (score_cluster dM sel.cluster robotW (1 / 2)).1 ∧
          sel.min_distance =
            (score_cluster dM sel.cluster robotW (1 / 2)).2 ∧
          sel.score = (sel.size : ℚ) / (sel.min_distance + 1 / 2) ∧
          sel.size = sel.cluster.length ∧
          sel.num_clusters = (find_all_clusters dM ballsW (3 / 2)).length ∧
          (∀ p ∈ sel.cluster, sel.min_distance ≤ dM p robotW) ∧
          (∀ j, j < (find_all_clusters dM ballsW (3 / 2)).length →
            (score_cluster dM
              ((find_all_clusters dM ballsW (3 / 2)).getD j [])
              robotW (1 / 2)).1 ≤ sel.score) ∧
          (∀ j, j < k →
            (score_cluster dM
              ((find_all_clusters dM ballsW (3 / 2)).getD j [])
              robotW (1 / 2)).1 < sel.score)))) :=
  ⟨dM_nonneg, by norm_num, by norm_num,
    c6_select_best dM dM_nonneg ballsW robotW (3 / 2) (1 / 2)
      (by norm_num) (by norm_num)⟩

/-! ### Full-sweep statistic (claim C10) -/

/-- C10: for a nonempty ball set, `plan_full_sweep` reports
`total_waypoints = number of balls + 1` (the prepended robot position)
and a `pruned_waypoints` statistic equal to that pre-pruning count minus
the length of the pruned refined (2-opt) waypoint list — the nearest-
neighbor list's own pruning plays no part in it. -/
theorem c10_pruned_waypoints_stat (d : Point → Point → ℚ)
    (balls : List Point) (robot_pos : Point) (hne : balls ≠ []) :
    ∃ plan, plan_full_sweep d balls robot_pos = some plan ∧
      plan.total_waypoints = balls.length + 1 ∧
      plan.pruned_waypoints = (balls.length + 1 : ℤ) -
        ((prune_waypoints d
          (two_opt_improve d
            (robot_pos :: nearest_neighbor_order d balls robot_pos))
          INTAKE_HALF_WIDTH).length : ℤ) := by
  have hlen : (nearest_neighbor_order d balls robot_pos).length =
      balls.length := (nn_order_perm d balls robot_pos).length_eq
  unfold plan_full_sweep
  rw [if_neg (by simpa using hne)]
  refine ⟨_, rfl, ?_, ?_⟩
  · show (robot_pos :: nearest_neighbor_order d balls robot_pos).length =
      balls.length + 1
    rw [List.length_cons, hlen]
  · show ((robot_pos :: nearest_neighbor_order d balls robot_pos).length
        : ℤ) - _ = _
    rw [List.length_cons, hlen]
    push_cast
    ring_nf

/-- C10 witness: the theorem applies at the concrete ball set `ballsW`
and reference `robotW`. -/
theorem c10_pruned_waypoints_stat_witness :
    ballsW ≠ [] ∧
    (∃ plan, plan_full_sweep dM ballsW robotW = some plan ∧
      plan.total_waypoints = ballsW.length + 1 ∧
      plan.pruned_waypoints = (ballsW.length + 1 : ℤ) -
        ((prune_waypoints dM
          (two_opt_improve dM
            (robotW :: nearest_neighbor_order dM ballsW robotW))
          INTAKE_HALF_WIDTH).length : ℤ)) :=
  ⟨by simp [ballsW], c10_pruned_waypoints_stat dM ballsW robotW
    (by simp [ballsW])⟩

/-! ### Clustering lemmas (claim C1)

Throughout, a boolean mask `m : List Bool` marks index `i` iff
`m.getD i false = true`. -/

/-- A marked index is in range. -/
lemma markB_lt (l : List Bool) (i : ℕ) (h : l.getD i false = true) :
    i < l.length := by
  by_contra hc
  push_neg at hc
  rw [List.getD_eq_getElem?_getD, List.getElem?_eq_none (by omega)] at h
  simp at h

/-- Setting an in-range index marks it. -/
lemma set_getD_self (l : List Bool) (i : ℕ) (h : i < l.length) :
    (l.set i true).getD i false = true := by
  rw [List.getD_eq_getElem?_getD, List.getElem?_set_self (by omega)]
  rfl

/-- Setting one index leaves the others unchanged. -/
lemma set_getD_other (l : List Bool) (i j : ℕ) (h : j ≠ i) :
    (l.set i true).getD j false = l.getD j false := by
  rw [List.getD_eq_getElem?_getD, List.getElem?_set_ne (Ne.symm h),
    ← List.getD_eq_getElem?_getD]

/-- For an in-range index the `getD` default is irrelevant. -/
lemma getD_default_irrel (l : List Bool) (i : ℕ) (h : i < l.length)
    (a b : Bool) : l.getD i a = l.getD i b := by
  rw [List.getD_eq_getElem _ _ h, List.getD_eq_getElem _ _ h]

/-- `markAll` preserves length. -/
lemma markAll_length (l : List Bool) (idxs : List ℕ) :
    (markAll l idxs).length = l.length := by
  induction idxs generalizing l with
  | nil => rfl
  | cons a t ih =>
      rw [show markAll l (a :: t) = markAll (l.set a true) t from rfl, ih,
        List.length_set]

/-- An index is marked after `markAll` iff it was marked before or is one
of the (in-range) marked indices. -/
lemma markAll_getD (l : List Bool) (idxs : List ℕ)
    (h : ∀ i ∈ idxs, i < l.length) (j : ℕ) :
    (markAll l idxs).getD j false = true ↔
      l.getD j false = true ∨ j ∈ idxs := by
  induction idxs generalizing l with
  | nil => simp [markAll]
  | cons a t ih =>
      rw [show markAll l (a :: t) = markAll (l.set a true) t from rfl]
      rw [ih (l.set a true) (by
        intro i hi
        rw [List.length_set]
        exact h i (List.mem_cons_of_mem a hi))]
      by_cases hja : j = a
      · subst hja
        rw [set_getD_self l j (h j (by simp))]
        simp
      · rw [set_getD_other l a j hja]
        simp [hja]

/-- A fresh all-`false` mask marks nothing. -/
lemma replicate_false_getD (n i : ℕ) :
    (List.replicate n (false : Bool)).getD i false = false := by
  by_cases h : i < n
  · rw [List.getD_eq_getElem _ _ (by simpa using h)]
    simp
  · rw [List.getD_eq_getElem?_getD, List.getElem?_eq_none (by simpa using h)]
    rfl

/-- The proximity relation is symmetric for a symmetric distance. -/
lemma Adj_symm (d : Point → Point → ℚ) (hsymm : ∀ p q, d p q = d q p)
    (balls : List Point) (radius : ℚ) {a b : ℕ}
    (h : Adj d balls radius a b) : Adj d balls radius b a :=
  ⟨h.2.1, h.1, by rw [hsymm]; exact h.2.2⟩

/-- Chain connectivity is symmetric for a symmetric distance. -/
lemma Conn_symm (d : Point → Point → ℚ) (hsymm : ∀ p q, d p q = d q p)
    (balls : List Point) (radius : ℚ) {a b : ℕ}
    (h : Conn d balls radius a b) : Conn d balls radius b a := by
  induction h with
  | refl => exact Relation.ReflTransGen.refl
  | tail _ hadj ih =>
      exact Relation.ReflTransGen.head (Adj_symm d hsymm balls radius hadj) ih

/-- A predicate closed under single proximity steps is closed along
chains. -/
lemma closed_along_conn (d : Point → Point → ℚ) (balls : List Point)
    (radius : ℚ) (P : ℕ → Prop)
    (hP : ∀ a b, P a → Adj d balls radius a b → P b) {x y : ℕ}
    (hx : P x) (h : Conn d balls radius x y) : P y := by
  induction h with
  | refl => exact hx
  | tail _ hadj ih => exact hP _ _ ih hadj

/-- A chain endpoint other than the start is in range; combined with a
start in range, both ends always are. -/
lemma conn_lt (d : Point → Point → ℚ) (balls : List Point) (radius : ℚ)
    {x y : ℕ} (hx : x < balls.length) (h : Conn d balls radius x y) :
    y < balls.length := by
  induction h with
  | refl => exact hx
  | tail _ hadj _ => exact hadj.2.1

/-- BFS specification: starting from a `prior`-visited set closed under
proximity steps and not containing the seed, with the in-cluster mask
holding the seed and the queue holding exactly the in-cluster vertices
whose neighbours may be unexplored, `bfs` returns the visited set
`prior ∪ component(seed)` and the in-cluster mask exactly
`component(seed)`. -/
lemma bfs_spec (d : Point → Point → ℚ) (hsymm : ∀ p q, d p q = d q p)
    (balls : List Point) (radius : ℚ) (seed : ℕ) (prior : ℕ → Prop)
    (hpriorE : ∀ a b, prior a → Adj d balls radius a b → prior b)
    (hseedp : ¬ prior seed) :
    ∀ (v c : List Bool) (q : List ℕ),
      v.length = balls.length → c.length = balls.length →
      (∀ i, v.getD i false = true ↔ prior i ∨ c.getD i false = true) →
      (∀ i, c.getD i false = true → Conn d balls radius seed i) →
      c.getD seed false = true →
      (∀ i ∈ q, c.getD i false = true) →
      (∀ a, c.getD a false = true → a ∉ q →
        ∀ b, Adj d balls radius a b → v.getD b false = true) →
      ((bfs d balls radius v c q).1.length = balls.length ∧
       (bfs d balls radius v c q).2.length = balls.length ∧
       (∀ i, (bfs d balls radius v c q).1.getD i false = true ↔
         prior i ∨ (bfs d balls radius v c q).2.getD i false = true) ∧
       (∀ i, (bfs d balls radius v c q).2.getD i false = true ↔
         Conn d balls radius seed i)) := by
  intro v c q
  induction v, c, q using bfs.induct d balls radius with
  | case1 v c =>
      intro hv hc hinv hsound hseedc hq hclose
      rw [bfs]
      have hnp : ∀ x, Conn d balls radius seed x → ¬ prior x := by
        intro x hcx hpx
        exact hseedp (closed_along_conn d balls radius prior hpriorE hpx
          (Conn_symm d hsymm balls radius hcx))
      refine ⟨hv, hc, hinv, fun i => ⟨hsound i, fun hconn => ?_⟩⟩
      induction hconn with
      | refl => exact hseedc
      | tail hab hadj ih =>
          have hvb := hclose _ ih (List.not_mem_nil _) _ hadj
          rcases (hinv _).mp hvb with hp | hc2
          · exact absurd hp (hnp _ (Relation.ReflTransGen.tail hab hadj))
          · exact hc2
  | case2 v c curr qs news ih =>
      intro hv hc hinv hsound hseedc hq hclose
      rw [bfs]
      have hnewsdef : news = (List.range balls.length).filter
          (fun i => !(v.getD i true) &&
            decide (d (balls.getD curr origin) (balls.getD i origin) ≤
              radius)) := rfl
      have hnews : ∀ i, i ∈ news ↔ i < balls.length ∧
          v.getD i true = false ∧
          d (balls.getD curr origin) (balls.getD i origin) ≤ radius := by
        intro i
        rw [hnewsdef, List.mem_filter, List.mem_range]
        simp
      have hccurr : c.getD curr false = true := hq curr (by simp)
      have hcurrlt : curr < balls.length := by
        have := markB_lt c curr hccurr
        omega
      have hnewslt_v : ∀ i ∈ news, i < v.length := by
        intro i hi
        rw [hv]
        exact ((hnews i).mp hi).1
      have hnewslt_c : ∀ i ∈ news, i < c.length := by
        intro i hi
        rw [hc]
        exact ((hnews i).mp hi).1
      have nhv : (markAll v news).length = balls.length := by
        rw [markAll_length, hv]
      have nhc : (markAll c news).length = balls.length := by
        rw [markAll_length, hc]
      have ninv : ∀ i, (markAll v news).getD i false = true ↔
          prior i ∨ (markAll c news).getD i false = true := by
        intro i
        rw [markAll_getD v news hnewslt_v i, markAll_getD c news hnewslt_c i,
          hinv i]
        tauto
      have nsound : ∀ i, (markAll c news).getD i false = true →
          Conn d balls radius seed i := by
        intro i hi
        rcases (markAll_getD c news hnewslt_c i).mp hi with hci | hni
        · exact hsound i hci
        · obtain ⟨hilt, _, hdist⟩ := (hnews i).mp hni
          exact Relation.ReflTransGen.tail (hsound curr hccurr)
            ⟨hcurrlt, hilt, hdist⟩
      have nseed : (markAll c news).getD seed false = true :=
        (markAll_getD c news hnewslt_c seed).mpr (Or.inl hseedc)
      have nq : ∀ i ∈ qs ++ news, (markAll c news).getD i false = true := by
        intro i hi
        rcases List.mem_append.mp hi with hi | hi
        · exact (markAll_getD c news hnewslt_c i).mpr
            (Or.inl (hq i (List.mem_cons_of_mem _ hi)))
        · exact (markAll_getD c news hnewslt_c i).mpr (Or.inr hi)
      have nclose : ∀ a, (markAll c news).getD a false = true →
          a ∉ qs ++ news → ∀ b, Adj d balls radius a b →
          (markAll v news).getD b false = true := by
        intro a ha hanotin b hadj
        rcases (markAll_getD c news hnewslt_c a).mp ha with hca | hanews
        · by_cases hac : a = curr
          · subst hac
            by_cases hvb : v.getD b false = true
            · exact (markAll_getD v news hnewslt_v b).mpr (Or.inl hvb)
            · refine (markAll_getD v news hnewslt_v b).mpr (Or.inr ?_)
              rw [hnews b]
              refine ⟨hadj.2.1, ?_, hadj.2.2⟩
              rw [getD_default_irrel v b (by rw [hv]; exact hadj.2.1)]
              exact Bool.not_eq_true _ |>.mp hvb
          · have hnq : a ∉ curr :: qs := by
              intro hmem
              rcases List.mem_cons.mp hmem with h1 | h1
              · exact hac h1
              · exact hanotin (List.mem_append.mpr (Or.inl h1))
            exact (markAll_getD v news hnewslt_v b).mpr
              (Or.inl (hclose a hca hnq b hadj))
        · exact absurd (List.mem_append.mpr (Or.inr hanews)) hanotin
      exact ih nhv nhc ninv nsound nseed nq nclose

/-- Specification of the seed loop of `find_all_clusters`: the visited
array is exactly the union of the emitted masks, every emitted mask is
exactly one connected component, masks are pairwise disjoint, visited
indices stay visited, and every processed seed ends up visited. -/
lemma clusterFold_spec (d : Point → Point → ℚ)
    (hsymm : ∀ p q, d p q = d q p) (balls : List Point) (radius : ℚ) :
    ∀ (seeds : List ℕ) (acc : List Bool × List (List Bool)),
      (∀ s ∈ seeds, s < balls.length) →
      acc.1.length = balls.length →
      (∀ m ∈ acc.2, m.length = balls.length) →
      (∀ m ∈ acc.2, ∃ s, s < balls.length ∧
        (∀ i, m.getD i false = true ↔ Conn d balls radius s i)) →
      (∀ i, acc.1.getD i false = true ↔
        ∃ m ∈ acc.2, m.getD i false = true) →
      acc.2.Pairwise (fun m1 m2 => ∀ i,
        ¬(m1.getD i false = true ∧ m2.getD i false = true)) →
      ((seeds.foldl
          (fun (acc : List Bool × List (List Bool)) seed =>
            if acc.1.getD seed true then acc
            else
              let res := bfs d balls radius (acc.1.set seed true)
                ((List.replicate balls.length false).set seed true) [seed]
              (res.1, acc.2 ++ [res.2]))
          acc).1.length = balls.length ∧
       (∀ m ∈ (seeds.foldl
          (fun (acc : List Bool × List (List Bool)) seed =>
            if acc.1.getD seed true then acc
            else
              let res := bfs d balls radius (acc.1.set seed true)
                ((List.replicate balls.length false).set seed true) [seed]
              (res.1, acc.2 ++ [res.2]))
          acc).2, m.length = balls.length) ∧
       (∀ m ∈ (seeds.foldl
          (fun (acc : List Bool × List (List Bool)) seed =>
            if acc.1.getD seed true then acc
            else
              let res := bfs d balls radius (acc.1.set seed true)
                ((List.replicate balls.length false).set seed true) [seed]
              (res.1, acc.2 ++ [res.2]))
          acc).2, ∃ s, s < balls.length ∧
          (∀ i, m.getD i false = true ↔ Conn d balls radius s i)) ∧
       (∀ i, (seeds.foldl
          (fun (acc : List Bool × List (List Bool)) seed =>
            if acc.1.getD seed true then acc
            else
              let res := bfs d balls radius (acc.1.set seed true)
                ((List.replicate balls.length false).set seed true) [seed]
              (res.1, acc.2 ++ [res.2]))
          acc).1.getD i false = true ↔
          ∃ m ∈ (seeds.foldl
            (fun (acc : List Bool × List (List Bool)) seed =>
              if acc.1.getD seed true then acc
              else
                let res := bfs d balls radius (acc.1.set seed true)
                  ((List.replicate balls.length false).set seed true) [seed]
                (res.1, acc.2 ++ [res.2]))
            acc).2, m.getD i false = true) ∧
       ((seeds.foldl
          (fun (acc : List Bool × List (List Bool)) seed =>
            if acc.1.getD seed true then acc
            else
              let res := bfs d balls radius (acc.1.set seed true)
                ((List.replicate balls.length false).set seed true) [seed]
              (res.1, acc.2 ++ [res.2]))
          acc).2.Pairwise (fun m1 m2 => ∀ i,
            ¬(m1.getD i false = true ∧ m2.getD i false = true))) ∧
       (∀ i, acc.1.getD i false = true → (seeds.foldl
          (fun (acc : List Bool × List (List Bool)) seed =>
            if acc.1.getD seed true then acc
            else
              let res := bfs d balls radius (acc.1.set seed true)
                ((List.replicate balls.length false).set seed true) [seed]
              (res.1, acc.2 ++ [res.2]))
          acc).1.getD i false = true) ∧
       (∀ s ∈ seeds, (seeds.foldl
          (fun (acc : List Bool × List (List Bool)) seed =>
            if acc.1.getD seed true then acc
            else
              let res := bfs d balls radius (acc.1.set seed true)
                ((List.replicate balls.length false).set seed true) [seed]
              (res.1, acc.2 ++ [res.2]))
          acc).1.getD s false = true)) := by
  intro seeds
  induction seeds with
  | nil =>
      intro acc hseeds hlen hmlen hmcomp hvchar hpw
      exact ⟨hlen, hmlen, hmcomp, hvchar, hpw, fun i h => h, by simp⟩
  | cons s st ih =>
      intro acc hseeds hlen hmlen hmcomp hvchar hpw
      rw [List.foldl_cons]
      have hslt : s < balls.length := hseeds s (by simp)
      by_cases hvis : acc.1.getD s true = true
      · rw [if_pos hvis]
        obtain ⟨g1, g2, g3, g4, g5, g6, g7⟩ := ih acc
          (fun x hx => hseeds x (List.mem_cons_of_mem _ hx))
          hlen hmlen hmcomp hvchar hpw
        refine ⟨g1, g2, g3, g4, g5, g6, fun x hx => ?_⟩
        rcases List.mem_cons.mp hx with hx | hx
        · subst hx
          apply g6
          rw [getD_default_irrel acc.1 x (by omega)]
          exact hvis
        · exact g7 x hx
      · rw [if_neg hvis]
        have hpriorE : ∀ a b, acc.1.getD a false = true →
            Adj d balls radius a b → acc.1.getD b false = true := by
          intro a b hpa hadj
          obtain ⟨m, hm, hma⟩ := (hvchar a).mp hpa
          obtain ⟨s', hs', hcomp⟩ := hmcomp m hm
          exact (hvchar b).mpr ⟨m, hm,
            (hcomp b).mpr (Relation.ReflTransGen.tail ((hcomp a).mp hma) hadj)⟩
        have hseedp : ¬ acc.1.getD s false = true := by
          intro hp
          rw [getD_default_irrel acc.1 s (by omega)] at hp
          exact hvis hp
        have hc0 : ∀ i,
            ((List.replicate balls.length false).set s true).getD i false =
              true ↔ i = s := by
          intro i
          by_cases his : i = s
          · subst his
            rw [set_getD_self (List.replicate balls.length false) i
              (by rw [List.length_replicate]; exact hslt)]
            simp
          · rw [set_getD_other _ _ _ his, replicate_false_getD]
            simp [his]
        obtain ⟨r1, r2, r3, r4⟩ := bfs_spec d hsymm balls radius s
          (fun i => acc.1.getD i false = true) hpriorE hseedp
          (acc.1.set s true)
          ((List.replicate balls.length false).set s true) [s]
          (by rw [List.length_set]; exact hlen)
          (by rw [List.length_set, List.length_replicate])
          (by
            intro i
            by_cases his : i = s
            · subst his
              constructor
              · intro _
                exact Or.inr ((hc0 i).mpr rfl)
              · intro _
                exact set_getD_self _ _ (by rw [hlen]; exact hslt)
            · rw [set_getD_other _ _ _ his, hc0 i]
              simp [his])
          (by
            intro i hi
            rw [hc0 i] at hi
            subst hi
            exact Relation.ReflTransGen.refl)
          ((hc0 s).mpr rfl)
          (by
            intro i hi
            rw [List.mem_singleton] at hi
            subst hi
            exact (hc0 i).mpr rfl)
          (by
            intro a ha hnq b hadj
            rw [hc0 a] at ha
            subst ha
            simp at hnq)
        set res := bfs d balls radius (acc.1.set s true)
          ((List.replicate balls.length false).set s true) [s] with hres
        have hdisj : ∀ m ∈ acc.2, ∀ i,
            ¬(m.getD i false = true ∧ res.2.getD i false = true) := by
          intro m hm i ⟨hmi, hri⟩
          have hpi : acc.1.getD i false = true :=
            (hvchar i).mpr ⟨m, hm, hmi⟩
          have hconn : Conn d balls radius s i := (r4 i).mp hri
          exact hseedp (closed_along_conn d balls radius
            (fun x => acc.1.getD x false = true) hpriorE hpi
            (Conn_symm d hsymm balls radius hconn))
        obtain ⟨g1, g2, g3, g4, g5, g6, g7⟩ := ih (res.1, acc.2 ++ [res.2])
          (fun x hx => hseeds x (List.mem_cons_of_mem _ hx))
          r1
          (by
            intro m hm
            rcases List.mem_append.mp hm with hm | hm
            · exact hmlen m hm
            · rw [List.mem_singleton] at hm
              subst hm
              exact r2)
          (by
            intro m hm
            rcases List.mem_append.mp hm with hm | hm
            · exact hmcomp m hm
            · rw [List.mem_singleton] at hm
              subst hm
              exact ⟨s, hslt, r4⟩)
          (by
            intro i
            rw [show (res.1, acc.2 ++ [res.2]).1 = res.1 from rfl, r3 i]
            constructor
            · intro h
              rcases h with hp | hr
              · obtain ⟨m, hm, hmi⟩ := (hvchar i).mp hp
                exact ⟨m, List.mem_append.mpr (Or.inl hm), hmi⟩
              · exact ⟨res.2, List.mem_append.mpr (Or.inr (by simp)), hr⟩
            · rintro ⟨m, hm, hmi⟩
              rcases List.mem_append.mp hm with hm | hm
              · exact Or.inl ((hvchar i).mpr ⟨m, hm, hmi⟩)
              · rw [List.mem_singleton] at hm
                subst hm
                exact Or.inr hmi)
          (by
            rw [List.pairwise_append]
            refine ⟨hpw, by simp, ?_⟩
            intro m hm m' hm'
            rw [List.mem_singleton] at hm'
            subst hm'
            exact hdisj m hm)
        refine ⟨g1, g2, g3, g4, g5, ?_, ?_⟩
        · intro i hi
          apply g6
          rw [show (res.1, acc.2 ++ [res.2]).1 = res.1 from rfl, r3 i]
          exact Or.inl hi
        · intro x hx
          rcases List.mem_cons.mp hx with hx | hx
          · subst hx
            apply g6
            rw [show (res.1, acc.2 ++ [res.2]).1 = res.1 from rfl, r3 x]
            exact Or.inr ((r4 x).mpr Relation.ReflTransGen.refl)
          · exact g7 x hx

/-- Occurrence count of an index in `range n`. -/
lemma range_count (n x : ℕ) :
    (List.range n).count x = if x < n then 1 else 0 := by
  by_cases h : x < n
  · rw [if_pos h]
    exact List.count_eq_one_of_mem (List.nodup_range n)
      (List.mem_range.mpr h)
  · rw [if_neg h]
    exact List.count_eq_zero.mpr (by
      rw [List.mem_range]
      omega)

/-- The sum of a boolean indicator over pairwise-disjoint masks is `1`
exactly when some mask marks the index. -/
lemma indicator_sum (x : ℕ) :
    ∀ (L : List (List Bool)),
      L.Pairwise (fun m1 m2 => ∀ i,
        ¬(m1.getD i false = true ∧ m2.getD i false = true)) →
      (L.map (fun m => if m.getD x false = true then 1 else 0)).sum =
        if ∃ m ∈ L, m.getD x false = true then 1 else 0 := by
  intro L
  induction L with
  | nil => simp
  | cons m L' ih =>
      intro hpw
      obtain ⟨hdisj, hpw'⟩ := List.pairwise_cons.mp hpw
      rw [List.map_cons, List.sum_cons, ih hpw']
      by_cases hmx : m.getD x false = true
      · rw [if_pos hmx]
        have hnone : ¬ ∃ m' ∈ L', m'.getD x false = true := by
          rintro ⟨m', hm', hm'x⟩
          exact hdisj m' hm' x ⟨hmx, hm'x⟩
        rw [if_neg hnone, if_pos ⟨m, by simp, hmx⟩]
      · rw [if_neg hmx]
        by_cases hex : ∃ m' ∈ L', m'.getD x false = true
        · rw [if_pos hex, if_pos (by
            obtain ⟨m', hm', hx'⟩ := hex
            exact ⟨m', List.mem_cons_of_mem _ hm', hx'⟩)]
        · rw [if_neg hex, if_neg (by
            rintro ⟨m', hm', hx'⟩
            rcases List.mem_cons.mp hm' with h | h
            · subst h
              exact hmx hx'
            · exact hex ⟨m', h, hx'⟩)]

/-- Cluster-mask facts for a nonempty ball set: every mask is one
connected component, masks are pairwise disjoint, and every in-range
index is covered by some mask. -/
lemma clusterMasks_spec (d : Point → Point → ℚ)
    (hsymm : ∀ p q, d p q = d q p) (balls : List Point) (radius : ℚ)
    (hne : balls ≠ []) :
    (∀ m ∈ clusterMasks d balls radius, m.length = balls.length) ∧
    (∀ m ∈ clusterMasks d balls radius, ∃ s, s < balls.length ∧
      (∀ i, m.getD i false = true ↔ Conn d balls radius s i)) ∧
    (clusterMasks d balls radius).Pairwise (fun m1 m2 => ∀ i,
      ¬(m1.getD i false = true ∧ m2.getD i false = true)) ∧
    (∀ i, i < balls.length → ∃ m ∈ clusterMasks d balls radius,
      m.getD i false = true) := by
  have hn : balls.length ≠ 0 := by
    intro h
    exact hne (List.length_eq_zero.mp h)
  unfold clusterMasks
  rw [if_neg hn]
  obtain ⟨g1, g2, g3, g4, g5, g6, g7⟩ :=
    clusterFold_spec d hsymm balls radius (List.range balls.length)
      (List.replicate balls.length false, [])
      (fun s hs => List.mem_range.mp hs)
      (by rw [List.length_replicate])
      (by simp)
      (by simp)
      (by
        intro i
        rw [show (List.replicate balls.length false, ([] : List (List Bool))).1
          = List.replicate balls.length false from rfl, replicate_false_getD]
        simp)
      (by simp)
  refine ⟨g2, g3, g5, fun i hi => ?_⟩
  exact (g4 i).mp (g7 i (List.mem_range.mpr hi))

/-- C1: `find_all_clusters` returns nonempty clusters whose concatenation
is a permutation of the input (each ball appears in exactly one cluster),
with pairwise-disjoint masks, and two in-range balls share a cluster mask
iff they are joined by a chain of balls with consecutive pairwise
distances at most the radius; the empty input yields the empty
partition. -/
theorem c1_find_all_clusters (d : Point → Point → ℚ)
    (hsymm : ∀ p q, d p q = d q p) (balls : List Point) (radius : ℚ)
    (hr : 0 < radius) :
    (∀ cl ∈ find_all_clusters d balls radius, cl ≠ []) ∧
    (find_all_clusters d balls radius).flatten.Perm balls ∧
    (clusterMasks d balls radius).Pairwise (fun m1 m2 => ∀ i,
      ¬(m1.getD i false = true ∧ m2.getD i false = true)) ∧
    (∀ a b, a < balls.length → b < balls.length →
      ((∃ m ∈ clusterMasks d balls radius,
        m.getD a false = true ∧ m.getD b false = true) ↔
        Conn d balls radius a b)) ∧
    (balls = [] → find_all_clusters d balls radius = []) := by
  by_cases hne : balls = []
  · subst hne
    have hcm : clusterMasks d [] radius = [] := by
      unfold clusterMasks
      simp
    have hfc : find_all_clusters d [] radius = [] := by
      unfold find_all_clusters
      rw [hcm]
      rfl
    rw [hfc, hcm]
    simp
  · obtain ⟨hmlen, hmcomp, hpw, hcover⟩ :=
      clusterMasks_spec d hsymm balls radius hne
    refine ⟨?_, ?_, hpw, ?_, fun h => absurd h hne⟩
    · intro cl hcl
      unfold find_all_clusters at hcl
      rw [List.mem_map] at hcl
      obtain ⟨m, hm, hsel⟩ := hcl
      obtain ⟨s, hs, hcomp⟩ := hmcomp m hm
      have hms : m.getD s false = true :=
        (hcomp s).mpr Relation.ReflTransGen.refl
      rw [← hsel]
      unfold selectMask
      intro hnil
      rw [List.map_eq_nil_iff] at hnil
      have : s ∈ (List.range balls.length).filter
          (fun i => m.getD i false) := by
        rw [List.mem_filter]
        exact ⟨List.mem_range.mpr hs, hms⟩
      rw [hnil] at this
      simp at this
    · unfold find_all_clusters selectMask
      have hcomp_eq : (clusterMasks d balls radius).map
          (fun m => ((List.range balls.length).filter
            (fun i => m.getD i false)).map
            (fun i => balls.getD i origin)) =
          List.map (List.map (fun i => balls.getD i origin))
            ((clusterMasks d balls radius).map
              (fun m => (List.range balls.length).filter
                (fun i => m.getD i false))) := by
        rw [List.map_map]
        exact List.map_congr_left (fun m _ => rfl)
      rw [hcomp_eq, ← List.map_flatten]
      have hidx : ((clusterMasks d balls radius).map
          (fun m => (List.range balls.length).filter
            (fun i => m.getD i false))).flatten.Perm
          (List.range balls.length) := by
        rw [List.perm_iff_count]
        intro x
        rw [List.count_flatten, List.map_map]
        have hmapeq : List.map ((List.count x) ∘
            (fun m => (List.range balls.length).filter
              (fun i => m.getD i false))) (clusterMasks d balls radius) =
            List.map (fun m => if m.getD x false = true then 1 else 0)
              (clusterMasks d balls radius) := by
          apply List.map_congr_left
          intro m hm
          show List.count x ((List.range balls.length).filter
            (fun i => m.getD i false)) = _
          by_cases hmx : m.getD x false = true
          · rw [if_pos hmx, List.count_filter (by simpa using hmx),
              range_count, if_pos (by
                have := markB_lt m x hmx
                rw [hmlen m hm] at this
                exact this)]
          · rw [if_neg hmx]
            exact List.count_eq_zero.mpr (by
              intro hmem
              exact hmx (by simpa using (List.mem_filter.mp hmem).2))
        rw [hmapeq, indicator_sum x _ hpw, range_count]
        by_cases hx : x < balls.length
        · rw [if_pos hx, if_pos (hcover x hx)]
        · rw [if_neg hx, if_neg (by
            rintro ⟨m, hm, hmx⟩
            have := markB_lt m x hmx
            rw [hmlen m hm] at this
            exact hx this)]
      have hmapped := hidx.map (fun i => balls.getD i origin)
      rw [map_getD_range] at hmapped
      exact hmapped
    · intro a b ha hb
      constructor
      · rintro ⟨m, hm, hma, hmb⟩
        obtain ⟨s, hs, hcomp⟩ := hmcomp m hm
        exact (Conn_symm d hsymm balls radius ((hcomp a).mp hma)).trans
          ((hcomp b).mp hmb)
      · intro hconn
        obtain ⟨m, hm, hma⟩ := hcover a ha
        obtain ⟨s, hs, hcomp⟩ := hmcomp m hm
        exact ⟨m, hm, hma, (hcomp b).mpr (((hcomp a).mp hma).trans hconn)⟩

/-- C1 witness: the hypotheses hold for `dM` and radius `3/2`, and the
theorem applies at the concrete ball set `ballsW`. -/
theorem c1_find_all_clusters_witness :
    (∀ p q : Point, dM p q = dM q p) ∧ (0 : ℚ) < 3 / 2 ∧
    ((∀ cl ∈ find_all_clusters dM ballsW (3 / 2), cl ≠ []) ∧
    (find_all_clusters dM ballsW (3 / 2)).flatten.Perm ballsW ∧
    (clusterMasks dM ballsW (3 / 2)).Pairwise (fun m1 m2 => ∀ i,
      ¬(m1.getD i false = true ∧ m2.getD i false = true)) ∧
    (∀ a b, a < ballsW.length → b < ballsW.length →
      ((∃ m ∈ clusterMasks dM ballsW (3 / 2),
        m.getD a false = true ∧ m.getD b false = true) ↔
        Conn dM ballsW (3 / 2) a b)) ∧
    (ballsW = [] → find_all_clusters dM ballsW (3 / 2) = [])) :=
  ⟨dM_symm, by norm_num,
    c1_find_all_clusters dM dM_symm ballsW (3 / 2) (by norm_num)⟩

end Planner
